import Mathlib

/-!
# Shallow embedding of zetapy's `dependencies.py`

This file embeds the core functions of `dependencies.py` (the ZETA test
pipeline) as executable Lean definitions over exact rational arithmetic,
and proves/refutes the frozen specification claims about them.

Conventions:
* Python/numpy floats are modelled as `ℚ` (exact arithmetic).  The two
  special float values that the code branches on (`np.nan`, `±np.inf`)
  are modelled by the dedicated type `EFloat` where a claim needs them.
* `np.sort` is modelled by `List.insertionSort (· ≤ ·)`, `np.unique` by
  sort-then-dedup, `np.interp` by explicit piecewise-linear evaluation.
* transcendental steps (`scipy.stats.norm.ppf`, the Gumbel branch of
  `getZetaP`) are modelled over `ℝ` where a claim is about their formula,
  and abstracted as function parameters inside the orchestrator
  `calcZetaOne`, whose claims only concern control flow and the exact
  rational parts of the result record.
* numpy calls that raise exceptions (`np.min`/`np.max`/python `max` on an
  empty array, indexing `[0]` into an empty array, the event-shape
  `raise Exception`) are modelled by `Except ZErr`.
-/

namespace Zetapy

/-! ## numpy helpers -/

/-- `np.sort` (ascending). -/
def npSort (l : List ℚ) : List ℚ := l.insertionSort (· ≤ ·)

/-- `np.unique`: the sorted list of distinct values. -/
def npUnique (l : List ℚ) : List ℚ := (npSort l).dedup

/-- `np.min` on a nonempty array (the orchestrator guards emptiness,
since `np.min` of an empty array raises `ValueError`). -/
def npMin : List ℚ → ℚ
  | [] => 0
  | x :: r => r.foldl min x

/-- `np.max` (same emptiness convention as `npMin`). -/
def npMax : List ℚ → ℚ
  | [] => 0
  | x :: r => r.foldl max x

/-- `np.mean` of a nonempty array. -/
def npMean (l : List ℚ) : ℚ := l.sum / l.length

/-- `x - np.mean(x)`: mean-centering of a deviation vector. -/
def center (l : List ℚ) : List ℚ := l.map (· - npMean l)

/-- `np.linspace(a, b, num := n)` with default `endpoint=True`. -/
def npLinspace (a b : ℚ) (n : ℕ) : List ℚ :=
  match n with
  | 0 => []
  | 1 => [a]
  | _ => (List.range n).map (fun i : ℕ => a + (b - a) * (i : ℚ) / ((n : ℚ) - 1))

/-- `np.argmax`: index of the first occurrence of the maximum. -/
def npArgmax (l : List ℚ) : ℕ := l.indexOf (npMax l)

/-- `np.interp(d, xp, fp)` for increasing knots `xp`: piecewise-linear
interpolation, clamped to `fp.head`/`fp.last` outside the knot range.
(numpy raises on empty `xp`; that case is unreachable at the call site,
line 153 of `dependencies.py`, which guards `d` against `np.min`/`np.max`
of the knots first.) -/
def npInterp (d : ℚ) : List ℚ → List ℚ → ℚ
  | x0 :: x1 :: xs, f0 :: f1 :: fs =>
    if d ≤ x0 then f0
    else if d ≤ x1 then f0 + (f1 - f0) * (d - x0) / (x1 - x0)
    else npInterp d (x1 :: xs) (f1 :: fs)
  | _ :: _, f0 :: _ => f0
  | _, _ => 0

/-- Observed-maximum values as the code sees them: a float that may be
`np.nan` or `±np.inf` (`getZetaP` branches on `np.isnan`/`np.isinf`). -/
inductive EFloat where
  | nan : EFloat
  | inf : EFloat
  | ninf : EFloat
  | fin : ℚ → EFloat
deriving DecidableEq, Repr

/-- IEEE comparison `d < q` of an `EFloat` against a finite value
(`False` for NaN). -/
def EFloat.ltQ : EFloat → ℚ → Bool
  | .nan, _ => false
  | .inf, _ => false
  | .ninf, _ => true
  | .fin x, q => decide (x < q)

/-- IEEE comparison `d > q` against a finite value (`False` for NaN). -/
def EFloat.gtQ : EFloat → ℚ → Bool
  | .nan, _ => false
  | .inf, _ => true
  | .ninf, _ => false
  | .fin x, q => decide (q < x)

/-- `np.isnan`. -/
def EFloat.isnan : EFloat → Bool
  | .nan => true
  | _ => false

/-- `np.isinf`. -/
def EFloat.isinf : EFloat → Bool
  | .inf => true
  | .ninf => true
  | _ => false

/-! ## `getSpikeT` (lines 268-296): per-trial windowing with sentinels -/

/-- `getSpikeT`: for every event, collect the spikes strictly inside
`(dblStartT, dblStartT + dblUseMaxDur)` shifted to be trial-relative
(the pre-allocation/resize bookkeeping of lines 272-291 amounts to
concatenating the per-trial selections), then sort and add the `0` and
`dblUseMaxDur` sentinel entries (line 294). -/
def getSpikeT (vecSpikeTimes vecEventTimes : List ℚ) (dblUseMaxDur : ℚ) : List ℚ :=
  let vecSpikesInTrial := vecEventTimes.flatMap (fun dblStartT =>
    (vecSpikeTimes.filter (fun s =>
      decide (s < dblStartT + dblUseMaxDur) && decide (dblStartT < s))).map (· - dblStartT))
  0 :: (npSort vecSpikesInTrial ++ [dblUseMaxDur])

/-! ## `getTempOffsetOne` (lines 234-265): deviation curve builder -/

/-- `np.finfo(np.float64).eps`, the offset unit of line 245. -/
def machineEps : ℚ := 1 / 2 ^ 52

/-- Lines 238-242: `np.unique(..., return_index=True)` followed by
`np.diff(vecIdx) > 1` with `[False]` appended.  On the sorted array
`vecSpikesInTrial` the first-occurrence index gaps are exactly the
multiplicities, so this flags each distinct value that occurs more than
once — except the largest one, to which the appended `False` is
assigned. -/
def vecNotUniqueOf (xs : List ℚ) : List ℚ :=
  (npUnique xs).dropLast.filter (fun v => decide (1 < xs.count v))

/-- Lines 247-249, for one duplicated value `v`: every occurrence of `v`
(j-th occurrence, 0-indexed) is replaced by
`v + eps * (j - k/2 - 1)` where `k` is the number of occurrences
(`sum(indIdx)`). -/
def replaceGroupAux (v eps k : ℚ) : List ℚ → ℕ → List ℚ
  | [], _ => []
  | x :: rest, j =>
    if x = v then (x + eps * ((j : ℚ) - k / 2 - 1)) :: replaceGroupAux v eps k rest (j + 1)
    else x :: replaceGroupAux v eps k rest j

/-- Lines 244-249: the in-place loop over `vecNotUnique`; each group is
re-counted (`sum(indIdx)`) on the array as modified so far. -/
def applyUniqueOffsets (xs : List ℚ) : List ℚ :=
  (vecNotUniqueOf xs).foldl
    (fun cur v => replaceGroupAux v machineEps (cur.count v) cur 0) xs

/-- The four arrays returned by `getTempOffsetOne`. -/
structure TempOffset where
  deviation : List ℚ
  fracs : List ℚ
  fracLinear : List ℚ
  times : List ℚ
deriving DecidableEq, Repr

/-- `getTempOffsetOne` (lines 234-265): build the in-trial spike vector,
disambiguate exact duplicates (lines 240-252), turn ranks into fractions
`linspace(1/n, 1, n)` (line 255), subtract the linear fraction
`t / dblUseMaxDur` (line 259) and mean-center (line 263). -/
def getTempOffsetOne (vecSpikeTimes vecEventTimes : List ℚ) (dblUseMaxDur : ℚ) :
    TempOffset :=
  let vecSpikesInTrial := getSpikeT vecSpikeTimes vecEventTimes dblUseMaxDur
  let adjusted :=
    if vecNotUniqueOf vecSpikesInTrial ≠ [] then applyUniqueOffsets vecSpikesInTrial
    else vecSpikesInTrial
  let vecThisSpikeTimes := npUnique adjusted
  let n := vecThisSpikeTimes.length
  let vecThisSpikeFracs := npLinspace (1 / (n : ℚ)) 1 n
  let vecThisFracLinear := vecThisSpikeTimes.map (· / dblUseMaxDur)
  let vecThisDeviation := center (List.zipWith (· - ·) vecThisSpikeFracs vecThisFracLinear)
  ⟨vecThisDeviation, vecThisSpikeFracs, vecThisFracLinear, vecThisSpikeTimes⟩

/-! ## `getZetaP`, direct-quantile branch (lines 135-159) -/

/-- `np.arange(0, n) + 1 = [1, …, n]` (line 154). -/
def ranks (n : ℕ) : List ℚ := (List.range n).map (fun i : ℕ => ((i : ℚ) + 1))

/-- Lines 148-154: the interpolated rank (`dblValue`) of the observed
maximum `d` among the sorted deduplicated null maxima `uniq`. -/
def quantileValue (d : EFloat) (uniq : List ℚ) : ℚ :=
  if d.ltQ (npMin uniq) || d.isnan then 0
  else if d.gtQ (npMax uniq) || d.isinf then uniq.length
  else
    match d with
    | .fin x => npInterp x uniq (ranks uniq.length)
    | _ => 0

/-- The p-value of the direct-quantile branch of `getZetaP`
(lines 138-156): dedup+sort the null maxima (line 138), then
`1 - dblValue / (1 + vecMaxRandD.size)` (line 156). -/
def quantileP (d : EFloat) (vecMaxRandD : List ℚ) : ℚ :=
  1 - quantileValue d (npUnique vecMaxRandD) / (1 + ((npUnique vecMaxRandD).length : ℚ))

/-! ## `getGumbel` (lines 171-231), over exact reals -/

/-- The Euler-Mascheroni literal of line 202. -/
def dblEulerMascheroni : ℚ := 0.5772156649015328606065120900824

/-- Line 206: `dblBeta = (sqrt(6)*sqrt(dblV))/pi`. -/
noncomputable def gumbelBeta (dblV : ℝ) : ℝ := Real.sqrt 6 * Real.sqrt dblV / Real.pi

/-- Line 209: `dblMode = dblE - dblBeta*dblEulerMascheroni`. -/
noncomputable def gumbelMode (dblE dblV : ℝ) : ℝ :=
  dblE - gumbelBeta dblV * (dblEulerMascheroni : ℝ)

/-- Line 212: the Gumbel CDF `exp(-exp(-((x-dblMode)/dblBeta)))`. -/
noncomputable def fGumbelCDF (dblMode dblBeta x : ℝ) : ℝ :=
  Real.exp (-Real.exp (-((x - dblMode) / dblBeta)))

/-- Lines 216-219: the p-value `1 - fGumbelCDF x` computed by `getGumbel`.
In exact real arithmetic `-norm.ppf(p/2)` is finite for every `p ∈ (0, 2)`,
so the float-saturation recovery of lines 225-228 never fires; the formula
it would apply is embedded separately as `gumbelTailP`. -/
noncomputable def gumbelP (dblE dblV x : ℝ) : ℝ :=
  1 - fGumbelCDF (gumbelMode dblE dblV) (gumbelBeta dblV) x

/-- Line 227 exactly as written in the source:
`arrP[i] = exp(dblMode - arrX[i] / dblBeta)`; by Python operator precedence
this is `exp(dblMode - (arrX[i] / dblBeta))`. -/
noncomputable def gumbelTailP (dblMode dblBeta x : ℝ) : ℝ :=
  Real.exp (dblMode - x / dblBeta)

/-- Modelled from the spec (§4.5): the intended tail approximation
`p ≈ exp((mu - x) / beta)`. -/
noncomputable def gumbelTailPSpec (dblMode dblBeta x : ℝ) : ℝ :=
  Real.exp ((dblMode - x) / dblBeta)

/-- `np.var` (population variance, `ddof=0`). -/
def npVar (l : List ℚ) : ℚ := npMean (l.map (fun x => (x - npMean l) ^ 2))

/-- The p-value produced by the Gumbel branch of `getZetaP`
(lines 161-163): moments are taken over the *deduplicated* null maxima,
since line 138 runs `np.unique` before the branch. -/
noncomputable def gumbelZetaP (vecMaxRandD : List ℚ) (x : ℝ) : ℝ :=
  gumbelP ((npMean (npUnique vecMaxRandD) : ℚ) : ℝ)
    ((npVar (npUnique vecMaxRandD) : ℚ) : ℝ) x

/-! ## `getPseudoSpikeVectors` (lines 299-401): the pseudo-trial stitcher -/

/-- `findfirst` (lines 395-401). -/
def findfirst (p : ℚ → Bool) (l : List ℚ) : Option ℕ := l.findIdx? p

/-- The loop state of lines 309-314. `firstSample` bundles
`intFirstSample` with `dblPseudoT0`, which the source assigns exactly when
`intFirstSample` is first set (lines 366-368). -/
structure StitchState where
  cellPseudoSpikeT : List (List ℚ)
  vecPseudoEventT : List ℚ
  dblPseudoEventT : ℚ
  intLastUsedSample : ℕ
  firstSample : Option (ℕ × ℚ)
deriving Repr

/-- One iteration of the trial loop (lines 317-372), for trial index
`intTrial` with onset `dblEventT` and previous onset `prevEventT`. -/
def stitchStep (vecSpikeTimes : List ℚ) (intSamples : ℕ) (dblWindowDur : ℚ)
    (intTrials : ℕ) (boolDiscardEdges : Bool) (intTrial : ℕ)
    (dblEventT prevEventT : ℚ) (st : StitchState) : StitchState :=
  -- lines 319-320
  let intStartSample := findfirst (fun s => decide (dblEventT ≤ s)) vecSpikeTimes
  let intEndSample := findfirst (fun s => decide (dblEventT + dblWindowDur < s)) vecSpikeTimes
  -- lines 322-324
  let se : Option ℕ × Option ℕ :=
    match intStartSample, intEndSample with
    | some s, some e => if s > e then (none, none) else (some s, some e)
    | s, e => (s, e)
  -- lines 326-327
  let se : Option ℕ × Option ℕ := if se.2.isNone then (se.1, se.1) else se
  -- lines 329-334
  let vecUseSamples : List ℕ :=
    match se with
    | (some s, some e) => (List.range' s (e + 1 - s)).filter (fun i => decide (i < intSamples))
    | _ => []
  -- lines 337-341: edge trials absorb all leading/trailing spikes
  let vecUseSamples :=
    if vecUseSamples ≠ [] then
      if intTrial = 0 ∧ ¬boolDiscardEdges then
        List.range (vecUseSamples.getLastD 0 + 1)
      else if intTrial = intTrials - 1 ∧ ¬boolDiscardEdges then
        List.range' (vecUseSamples.headD 0) (intSamples - vecUseSamples.headD 0)
      else vecUseSamples
    else vecUseSamples
  -- line 344
  let vecAddT := vecUseSamples.map (fun i => vecSpikeTimes.getD i 0)
  -- lines 348-357; `indOverlap` (line 345) is `vecUseSamples ≤ intLastUsedSample`
  let upd :=
    if intTrial = 0 then ((0 : ℚ), vecUseSamples, vecAddT)
    else if dblWindowDur > dblEventT - prevEventT then
      let vu := vecUseSamples.filter (fun i => decide (¬ i ≤ st.intLastUsedSample))
      (st.dblPseudoEventT + (dblEventT - prevEventT), vu,
        vu.map (fun i => vecSpikeTimes.getD i 0))
    else (st.dblPseudoEventT + dblWindowDur, vecUseSamples, vecAddT)
  let dblPseudoEventT := upd.1
  let vecUseSamples := upd.2.1
  let vecAddT := upd.2.2
  -- lines 360-364
  let out :=
    if vecUseSamples.isEmpty then (([] : List ℚ), st.intLastUsedSample)
    else (vecAddT.map (fun t => t - dblEventT + dblPseudoEventT), vecUseSamples.getLastD 0)
  -- lines 366-368
  let firstSample :=
    match st.firstSample, vecUseSamples.head? with
    | none, some f => some (f, dblPseudoEventT)
    | fs, _ => fs
  { cellPseudoSpikeT := st.cellPseudoSpikeT ++ [out.1]
    vecPseudoEventT := st.vecPseudoEventT ++ [dblPseudoEventT]
    dblPseudoEventT := dblPseudoEventT
    intLastUsedSample := out.2
    firstSample := firstSample }

/-- The trial loop; also returns the final `dblEventT` (used by line 387). -/
def stitchLoop (vecSpikeTimes : List ℚ) (intSamples : ℕ) (dblWindowDur : ℚ)
    (intTrials : ℕ) (boolDiscardEdges : Bool) :
    List ℚ → ℕ → ℚ → StitchState → StitchState × ℚ
  | [], _, prevE, st => (st, prevE)
  | e :: rest, i, prevE, st =>
    stitchLoop vecSpikeTimes intSamples dblWindowDur intTrials boolDiscardEdges rest
      (i + 1) e
      (stitchStep vecSpikeTimes intSamples dblWindowDur intTrials boolDiscardEdges i e
        prevE st)

/-- `getPseudoSpikeVectors` (lines 299-392).  (`dblMedianDur` of line 308
is computed but never used by the source; it is omitted.)  The caller
guarantees a nonempty event array (an empty one would raise at line 384
in numpy). -/
def getPseudoSpikeVectors (vecSpikeTimes vecEventTimes : List ℚ) (dblWindowDur : ℚ)
    (boolDiscardEdges : Bool := false) : List ℚ × List ℚ :=
  let spikes := npSort vecSpikeTimes
  let events := npSort vecEventTimes
  let intSamples := spikes.length
  let intTrials := events.length
  let st0 : StitchState := ⟨[], [], 0, 0, none⟩
  let res := stitchLoop spikes intSamples dblWindowDur intTrials boolDiscardEdges
    events 0 0 st0
  let st := res.1
  let dblEventT := res.2
  -- add beginning (lines 375-380); `np.ptp` of the sorted prefix is
  -- `spikes[intFirstSample-1] - spikes[0]`
  let frags :=
    match st.firstSample with
    | some (intFirstSample, dblPseudoT0) =>
      if ¬boolDiscardEdges ∧ 0 < intFirstSample then
        let dblStepBegin := spikes.getD intFirstSample 0 - spikes.getD (intFirstSample - 1) 0
        let ptp := spikes.getD (intFirstSample - 1) 0 - spikes.getD 0 0
        st.cellPseudoSpikeT ++
          [(List.range intFirstSample).map (fun i =>
            spikes.getD i 0 - spikes.getD 0 0 + dblPseudoT0 - dblStepBegin - ptp)]
      else st.cellPseudoSpikeT
    | none => st.cellPseudoSpikeT
  -- add end (lines 383-388)
  let frags :=
    match findfirst (fun s => decide (events.getLastD 0 + dblWindowDur < s)) spikes with
    | none => frags
    | some intLastUsedSample =>
      if ¬boolDiscardEdges ∧ intLastUsedSample < intSamples - 1 then
        frags ++ [(List.range' intLastUsedSample (intSamples - intLastUsedSample)).map
          (fun i => spikes.getD i 0 - dblEventT + st.dblPseudoEventT + dblWindowDur)]
      else frags
  (npSort frags.flatten, st.vecPseudoEventT)

/-! ## `calcZetaOne` (lines 9-132): the orchestrator -/

/-- The exceptions the orchestrator can raise: the explicit
`raise Exception` of line 53, `IndexError` from indexing an empty axis,
and `ValueError` from a numpy reduction over an empty array. -/
inductive ZErr where
  | shapeError : ZErr
  | indexError : ZErr
  | valueError : ZErr
deriving DecidableEq, Repr

/-- `arrEventTimes`: a 1-D or 2-D float array (the ndim/dtype assert of
line 45 is a precondition of every claim).  2-D arrays are modelled as a
list of rows, assumed rectangular. -/
inductive EventArray where
  | oneD : List ℚ → EventArray
  | twoD : List (List ℚ) → EventArray
deriving DecidableEq, Repr

/-- `shape[0]` of an `EventArray` (after `reshape(-1, 1)` for 1-D). -/
def EventArray.rows : EventArray → ℕ
  | .oneD v => v.length
  | .twoD m => m.length

/-- `shape[1]` of an `EventArray` (after `reshape(-1, 1)` for 1-D). -/
def EventArray.cols : EventArray → ℕ
  | .oneD _ => 1
  | .twoD m => (m.headD []).length

/-- Lines 47-59: orientation handling and extraction of the onset column
`vecEventT = arrEventTimes[:, 0]`. -/
def getEventColumn (a : EventArray) : Except ZErr (List ℚ) :=
  match a with
  | .oneD v => .ok v
  | .twoD m =>
    if (m.headD []).length < 3 then
      -- shape[1] < 3: keep orientation; `[:, 0]` raises on a zero-width row
      if m.all (fun r => !r.isEmpty) then .ok (m.map (fun r => r.headD 0))
      else .error .indexError
    else if m.length < 3 then
      -- shape[0] < 3: transpose, then `[:, 0]` is the original first row
      match m.head? with
      | some r => .ok r
      | none => .error .indexError
    else .error .shapeError

/-- Lines 61-64: restrict the spike train to
`dblStartT < t < dblStopT` (strict on both sides). -/
def reduceSpikes (vecSpikeTimes vecEventT : List ℚ) (dblUseMaxDur dblJitterSize : ℚ) :
    List ℚ :=
  let dblMinPreEventT := npMin vecEventT - dblUseMaxDur * 5 * dblJitterSize
  let dblStartT := max (vecSpikeTimes.headD 0) dblMinPreEventT
  let dblStopT := npMax vecEventT + dblUseMaxDur * 5 * dblJitterSize
  vecSpikeTimes.filter (fun t => decide (dblStartT < t) && decide (t < dblStopT))

/-- The `dZETA` result record (lines 29-38 / 122-131); curve fields are
`Option`s because the insufficient-data paths leave them at `None`. -/
structure ZetaResult where
  vecSpikeT : Option (List ℚ)
  vecRealDeviation : Option (List ℚ)
  vecRealFrac : Option (List ℚ)
  vecRealFracLinear : Option (List ℚ)
  cellRandTime : Option (List (List ℚ))
  cellRandDeviation : Option (List (List ℚ))
  dblZetaP : ℚ
  dblZETA : ℚ
  intZETAIdx : Option ℕ
deriving DecidableEq, Repr

/-- The pre-allocated default record of lines 19-38. -/
def defaultZeta : ZetaResult := ⟨none, none, none, none, none, none, 1, 0, none⟩

/-- `getZetaP` (lines 135-168) applied to the orchestrator's scalar
observed maximum.  `np.min` inside the direct-quantile branch (line 148)
raises `ValueError` on an empty null vector.  The transcendental z-score
`-norm.ppf(p/2)` and the numeric Gumbel branch are abstracted as the
parameters `ppf` and `gumbelPZ` (the latter receives the deduplicated
null maxima of line 138). -/
def getZetaPScalar (dblMaxD : ℚ) (vecMaxRandD : List ℚ) (boolDirectQuantile : Bool)
    (ppf : ℚ → ℚ) (gumbelPZ : List ℚ → ℚ → ℚ × ℚ) : Except ZErr (ℚ × ℚ) :=
  if boolDirectQuantile then
    if vecMaxRandD.isEmpty then .error .valueError
    else
      let p := quantileP (.fin dblMaxD) vecMaxRandD
      .ok (p, -ppf (p / 2))
  else .ok (gumbelPZ (npUnique vecMaxRandD) dblMaxD)

/-- Lines 72-76: stitch the reduced spikes, or pass them through. -/
def pseudoData (vecSpikeTimes2 vecEventT : List ℚ) (dblUseMaxDur : ℚ)
    (boolStitch : Bool) : List ℚ × List ℚ :=
  if boolStitch then getPseudoSpikeVectors vecSpikeTimes2 vecEventT dblUseMaxDur
  else (vecSpikeTimes2, vecEventT)

/-- One resampling iteration (lines 100-115): jitter the pseudo event
times by the permuted `jitterSize * linspace(-W, W, T)` vector and rerun
the deviation-curve builder; returns the spike-time and mean-centered
deviation arrays appended to `cellRandTime`/`cellRandDeviation`. -/
def resampleDeviation (pseudo : List ℚ × List ℚ) (dblUseMaxDur dblJitterSize : ℚ)
    (perms : ℕ → List ℕ) (r : ℕ) : List ℚ × List ℚ :=
  let vecJitterPerTrial :=
    (npLinspace (-dblUseMaxDur) dblUseMaxDur pseudo.2.length).map
      (fun x => dblJitterSize * x)
  let vecStimUseOnTime :=
    pseudo.2.zipWith (fun e i => e + vecJitterPerTrial.getD i 0) (perms r)
  let tr := getTempOffsetOne pseudo.1 vecStimUseOnTime dblUseMaxDur
  (tr.times, center tr.deviation)

/-- The body of `calcZetaOne` after the event-column extraction
(lines 61-132), on the onset vector `vecEventT`. -/
def calcZetaCore (vecSpikeTimes vecEventT : List ℚ)
    (dblUseMaxDur : ℚ) (intResampNum : ℕ) (boolDirectQuantile : Bool)
    (dblJitterSize : ℚ) (boolStitch : Bool)
    (perms : ℕ → List ℕ) (ppf : ℚ → ℚ) (gumbelPZ : List ℚ → ℚ → ℚ × ℚ) :
    Except ZErr ZetaResult :=
  if vecEventT.isEmpty then .error .valueError        -- np.min, line 61
  else if vecSpikeTimes.isEmpty then .error .indexError  -- [0], line 62
  else
    let vecSpikeTimes2 := reduceSpikes vecSpikeTimes vecEventT dblUseMaxDur dblJitterSize
    if vecSpikeTimes2.length < 3 then .ok defaultZeta     -- lines 66-69
    else
      let pseudo := pseudoData vecSpikeTimes2 vecEventT dblUseMaxDur boolStitch
      let t := getTempOffsetOne pseudo.1 pseudo.2 dblUseMaxDur  -- line 80
      if t.deviation.length < 3 then .ok defaultZeta      -- lines 82-85
      else
        let vecRealDeviation := center t.deviation        -- line 87
        let vecAbs := vecRealDeviation.map (fun x => |x|)
        let intZETAIdx := npArgmax vecAbs                 -- line 88
        let dblMaxD := vecAbs.getD intZETAIdx 0           -- line 89
        let rand := (List.range intResampNum).map
          (resampleDeviation pseudo dblUseMaxDur dblJitterSize perms)
        let vecMaxRandD := rand.map (fun c => npMax (c.2.map (fun x => |x|)))
        (getZetaPScalar dblMaxD vecMaxRandD boolDirectQuantile ppf gumbelPZ).map
          (fun pz =>
            { vecSpikeT := some t.times
              vecRealDeviation := some vecRealDeviation
              vecRealFrac := some t.fracs
              vecRealFracLinear := some t.fracLinear
              cellRandTime := some (rand.map Prod.fst)
              cellRandDeviation := some (rand.map Prod.snd)
              dblZetaP := pz.1
              dblZETA := pz.2
              intZETAIdx := some intZETAIdx })

/-- `calcZetaOne` (lines 9-132).  `np.random.permutation` (line 104) is
abstracted as the parameter `perms` giving the permuted trial indices of
each resampling; `boolParallel` is accepted and ignored ("to do",
line 41). -/
def calcZetaOne (vecSpikeTimes : List ℚ) (arrEventTimes : EventArray)
    (dblUseMaxDur : ℚ) (intResampNum : ℕ) (boolDirectQuantile : Bool)
    (dblJitterSize : ℚ) (boolStitch : Bool) (boolParallel : Bool)
    (perms : ℕ → List ℕ) (ppf : ℚ → ℚ) (gumbelPZ : List ℚ → ℚ → ℚ × ℚ) :
    Except ZErr ZetaResult :=
  (getEventColumn arrEventTimes).bind
    (fun vecEventT =>
      calcZetaCore vecSpikeTimes vecEventT dblUseMaxDur intResampNum boolDirectQuantile
        dblJitterSize boolStitch perms ppf gumbelPZ)

/-! ## Claim-side (spec-worded) definitions and predicates -/

/-- Modelled from the spec (claim C5 wording): the rank of `d` among the
sorted, deduplicated null maxima — linear interpolation in-range, `0`
below the minimum, and the cap value `N` above the maximum or at
infinity. -/
def claimQuantileRank (d : EFloat) (sortedDedup : List ℚ) (N : ℚ) : ℚ :=
  if d.ltQ (npMin sortedDedup) then 0
  else if d.gtQ (npMax sortedDedup) || d.isinf then N
  else
    match d with
    | .fin x => npInterp x sortedDedup (ranks sortedDedup.length)
    | _ => 0

/-- Modelled from the spec (claim C5 as stated): `p = 1 - r/(N+1)` with
`N` *the count of null maxima* and `r` the rank among the sorted
deduplicated values, capped at `N`. -/
def claimQuantileP (d : EFloat) (vecMaxRandD : List ℚ) : ℚ :=
  1 - claimQuantileRank d (npSort vecMaxRandD.dedup) (vecMaxRandD.length : ℚ) /
    ((vecMaxRandD.length : ℚ) + 1)

/-- The C5 claim amended: `N` is the number of *distinct* null maxima. -/
def amendedQuantileP (d : EFloat) (vecMaxRandD : List ℚ) : ℚ :=
  1 - claimQuantileRank d (npSort vecMaxRandD.dedup) (vecMaxRandD.dedup.length : ℚ) /
    ((vecMaxRandD.dedup.length : ℚ) + 1)

/-- Modelled from the spec (claim C8 wording): restriction to the
*closed* interval `[start, stop]` with
`start = max(firstSpikeTime, minEventTime - 5*dblUseMaxDur*dblJitterSize)`
and `stop = maxEventTime + 5*dblUseMaxDur*dblJitterSize`. -/
def claimReduceSpikes (vecSpikeTimes vecEventT : List ℚ)
    (dblUseMaxDur dblJitterSize : ℚ) : List ℚ :=
  let dblStartT := max (vecSpikeTimes.headD 0)
    (npMin vecEventT - 5 * dblUseMaxDur * dblJitterSize)
  let dblStopT := npMax vecEventT + 5 * dblUseMaxDur * dblJitterSize
  vecSpikeTimes.filter (fun t => decide (dblStartT ≤ t) && decide (t ≤ dblStopT))

/-- The fatal-input condition of lines 47-54: a 2-D event array with both
dimensions at least 3. -/
def EventArray.badShape (a : EventArray) : Prop :=
  match a with
  | .oneD _ => False
  | .twoD m => 3 ≤ (m.headD []).length ∧ 3 ≤ m.length

instance : DecidablePred EventArray.badShape := fun a =>
  match a with
  | .oneD _ => isFalse (fun h => h.elim)
  | .twoD m => inferInstanceAs (Decidable (3 ≤ (m.headD []).length ∧ 3 ≤ m.length))

/-- A well-formed `arrEventTimes`: what an actual nonempty numpy float
array with at least one column provides (rectangularity in the 2-D
case). -/
def EventArray.proper (a : EventArray) : Prop :=
  match a with
  | .oneD v => v ≠ []
  | .twoD m => m ≠ [] ∧ 1 ≤ (m.headD []).length ∧ ∀ r ∈ m, r.length = (m.headD []).length

instance exceptDecidableEq {ε α : Type} [DecidableEq ε] [DecidableEq α] :
    DecidableEq (Except ε α)
  | .error e, .error f =>
    if h : e = f then isTrue (by rw [h])
    else isFalse (fun hc => h (Except.error.inj hc))
  | .error _, .ok _ => isFalse (fun hc => Except.noConfusion hc)
  | .ok _, .error _ => isFalse (fun hc => Except.noConfusion hc)
  | .ok a, .ok b =>
    if h : a = b then isTrue (by rw [h])
    else isFalse (fun hc => h (Except.ok.inj hc))

/-- The pseudo-event-time cursor recurrence of lines 348-357, extracted
from the trial loop: trial 0 pins the cursor to `0`; an overlapping trial
advances it by the inter-event gap, a non-overlapping one by the full
window. -/
def cursorScan (dblWindowDur : ℚ) : List ℚ → ℕ → ℚ → ℚ → List ℚ
  | [], _, _, _ => []
  | e :: rest, i, prevE, cur =>
    let c := if i = 0 then 0
      else if dblWindowDur > e - prevE then cur + (e - prevE) else cur + dblWindowDur
    c :: cursorScan dblWindowDur rest (i + 1) e c

/-! ## Helper lemmas about the numpy models -/

theorem npSort_sorted (l : List ℚ) : List.Sorted (· ≤ ·) (npSort l) :=
  List.sorted_insertionSort _ l

theorem npSort_perm (l : List ℚ) : List.Perm (npSort l) l :=
  List.perm_insertionSort _ l

theorem npSort_eq_self {l : List ℚ} (h : List.Sorted (· ≤ ·) l) : npSort l = l :=
  h.insertionSort_eq

theorem mem_npSort {a : ℚ} {l : List ℚ} : a ∈ npSort l ↔ a ∈ l :=
  (npSort_perm l).mem_iff

theorem npUnique_sorted (l : List ℚ) : List.Sorted (· ≤ ·) (npUnique l) :=
  List.Pairwise.sublist (List.dedup_sublist _) (npSort_sorted l)

theorem npUnique_nodup (l : List ℚ) : (npUnique l).Nodup :=
  List.nodup_dedup _

theorem mem_npUnique {a : ℚ} {l : List ℚ} : a ∈ npUnique l ↔ a ∈ l := by
  unfold npUnique
  rw [List.mem_dedup, mem_npSort]

theorem npUnique_sorted_lt (l : List ℚ) : List.Sorted (· < ·) (npUnique l) := by
  have h1 := npUnique_sorted l
  have h2 := npUnique_nodup l
  unfold List.Sorted at *
  unfold List.Nodup at h2
  exact (h1.and h2).imp (fun h => lt_of_le_of_ne h.1 h.2)

theorem npUnique_eq_nil {l : List ℚ} : npUnique l = [] ↔ l = [] := by
  constructor
  · intro h
    rcases l with _ | ⟨x, r⟩
    · rfl
    · exfalso
      have : x ∈ npUnique (x :: r) := mem_npUnique.mpr (by simp)
      simp [h] at this
  · intro h; subst h; rfl

theorem npUnique_eq_sort_dedup (l : List ℚ) : npUnique l = npSort l.dedup := by
  refine List.eq_of_perm_of_sorted ?_ (npUnique_sorted l) (npSort_sorted l.dedup)
  exact ((npSort_perm l).dedup).trans (npSort_perm l.dedup).symm

theorem foldl_min_mem (x : ℚ) (r : List ℚ) : r.foldl min x ∈ x :: r := by
  induction r generalizing x with
  | nil => simp
  | cons a t ih =>
    rw [List.foldl_cons]
    rcases List.mem_cons.mp (ih (min x a)) with h | h
    · rw [h]
      rcases min_choice x a with hc | hc
      · rw [hc]; exact List.mem_cons_self _ _
      · rw [hc]; exact List.mem_cons_of_mem _ (List.mem_cons_self _ _)
    · exact List.mem_cons_of_mem _ (List.mem_cons_of_mem _ h)

theorem foldl_min_le (x : ℚ) (r : List ℚ) : ∀ a ∈ x :: r, r.foldl min x ≤ a := by
  induction r generalizing x with
  | nil =>
    intro a ha
    simp only [List.mem_singleton] at ha
    simp [ha]
  | cons b t ih =>
    intro a ha
    rw [List.foldl_cons]
    rcases List.mem_cons.mp ha with h | h
    · subst h
      exact le_trans (ih (min a b) _ (List.mem_cons_self _ _)) (min_le_left _ _)
    · rcases List.mem_cons.mp h with h' | h'
      · subst h'
        exact le_trans (ih (min x a) _ (List.mem_cons_self _ _)) (min_le_right _ _)
      · exact ih (min x b) a (List.mem_cons_of_mem _ h')

theorem foldl_max_mem (x : ℚ) (r : List ℚ) : r.foldl max x ∈ x :: r := by
  induction r generalizing x with
  | nil => simp
  | cons a t ih =>
    rw [List.foldl_cons]
    rcases List.mem_cons.mp (ih (max x a)) with h | h
    · rw [h]
      rcases max_choice x a with hc | hc
      · rw [hc]; exact List.mem_cons_self _ _
      · rw [hc]; exact List.mem_cons_of_mem _ (List.mem_cons_self _ _)
    · exact List.mem_cons_of_mem _ (List.mem_cons_of_mem _ h)

theorem le_foldl_max (x : ℚ) (r : List ℚ) : ∀ a ∈ x :: r, a ≤ r.foldl max x := by
  induction r generalizing x with
  | nil =>
    intro a ha
    simp only [List.mem_singleton] at ha
    simp [ha]
  | cons b t ih =>
    intro a ha
    rw [List.foldl_cons]
    rcases List.mem_cons.mp ha with h | h
    · subst h
      exact le_trans (le_max_left _ _) (ih (max a b) _ (List.mem_cons_self _ _))
    · rcases List.mem_cons.mp h with h' | h'
      · subst h'
        exact le_trans (le_max_right _ _) (ih (max x a) _ (List.mem_cons_self _ _))
      · exact ih (max x b) a (List.mem_cons_of_mem _ h')

theorem npMin_mem {l : List ℚ} (h : l ≠ []) : npMin l ∈ l := by
  rcases l with _ | ⟨x, r⟩
  · exact absurd rfl h
  · exact foldl_min_mem x r

theorem npMin_le {l : List ℚ} {a : ℚ} (ha : a ∈ l) : npMin l ≤ a := by
  rcases l with _ | ⟨x, r⟩
  · simp at ha
  · exact foldl_min_le x r a ha

theorem npMax_mem {l : List ℚ} (h : l ≠ []) : npMax l ∈ l := by
  rcases l with _ | ⟨x, r⟩
  · exact absurd rfl h
  · exact foldl_max_mem x r

theorem le_npMax {l : List ℚ} {a : ℚ} (ha : a ∈ l) : a ≤ npMax l := by
  rcases l with _ | ⟨x, r⟩
  · simp at ha
  · exact le_foldl_max x r a ha

theorem sum_map_sub_mean (l : List ℚ) (m : ℚ) :
    (l.map (· - m)).sum = l.sum - l.length * m := by
  induction l with
  | nil => simp
  | cons x r ih => simp [ih]; ring

theorem npMean_center {l : List ℚ} (h : l ≠ []) : npMean (center l) = 0 := by
  have hn : (l.length : ℚ) ≠ 0 := by
    have := List.length_pos.mpr h
    positivity
  unfold npMean center
  rw [List.length_map, sum_map_sub_mean]
  unfold npMean
  field_simp

/-! ## `npInterp` bounds and monotonicity -/

theorem npInterp_ge (d m : ℚ) :
    ∀ (xp fp : List ℚ), xp.length = fp.length →
    List.Pairwise (· < ·) xp → (∀ f ∈ fp, m ≤ f) → xp ≠ [] →
    m ≤ npInterp d xp fp := by
  intro xp
  induction xp with
  | nil => intro fp _ _ _ hne; exact absurd rfl hne
  | cons x0 xs ih =>
    intro fp hlen hx hf _
    rcases fp with _ | ⟨f0, fs⟩
    · simp at hlen
    rcases xs with _ | ⟨x1, xt⟩
    · have : fs = [] := by simpa using hlen.symm
      subst this
      simpa [npInterp] using hf f0 (by simp)
    rcases fs with _ | ⟨f1, ft⟩
    · simp at hlen
    simp only [npInterp]
    by_cases h0 : d ≤ x0
    · simpa [h0] using hf f0 (by simp)
    by_cases h1 : d ≤ x1
    · simp only [h0, h1, if_false, if_true]
      have hx01 : x0 < x1 := (List.pairwise_cons.mp hx).1 x1 (by simp)
      have hf0 : m ≤ f0 := hf f0 (by simp)
      have hf1 : m ≤ f1 := hf f1 (by simp)
      have hr0 : 0 ≤ (d - x0) / (x1 - x0) :=
        div_nonneg (by linarith) (by linarith)
      have hr1 : (d - x0) / (x1 - x0) ≤ 1 := by
        rw [div_le_one (by linarith)]; linarith
      rw [mul_div_assoc]
      nlinarith [mul_le_mul_of_nonneg_right (le_refl (f1 - f0)) hr0]
    · simp only [h0, h1, if_false]
      exact ih (f1 :: ft)
        (by simpa using hlen)
        (List.Pairwise.of_cons hx)
        (fun f hfm => hf f (List.mem_cons_of_mem _ hfm))
        (by simp)

theorem npInterp_le (d M : ℚ) :
    ∀ (xp fp : List ℚ), xp.length = fp.length →
    List.Pairwise (· < ·) xp → (∀ f ∈ fp, f ≤ M) → xp ≠ [] →
    npInterp d xp fp ≤ M := by
  intro xp
  induction xp with
  | nil => intro fp _ _ _ hne; exact absurd rfl hne
  | cons x0 xs ih =>
    intro fp hlen hx hf _
    rcases fp with _ | ⟨f0, fs⟩
    · simp at hlen
    rcases xs with _ | ⟨x1, xt⟩
    · have : fs = [] := by simpa using hlen.symm
      subst this
      simpa [npInterp] using hf f0 (by simp)
    rcases fs with _ | ⟨f1, ft⟩
    · simp at hlen
    simp only [npInterp]
    by_cases h0 : d ≤ x0
    · simpa [h0] using hf f0 (by simp)
    by_cases h1 : d ≤ x1
    · simp only [h0, h1, if_false, if_true]
      have hx01 : x0 < x1 := (List.pairwise_cons.mp hx).1 x1 (by simp)
      have hf0 : f0 ≤ M := hf f0 (by simp)
      have hf1 : f1 ≤ M := hf f1 (by simp)
      have hr0 : 0 ≤ (d - x0) / (x1 - x0) :=
        div_nonneg (by linarith) (by linarith)
      have hr1 : (d - x0) / (x1 - x0) ≤ 1 := by
        rw [div_le_one (by linarith)]; linarith
      rw [mul_div_assoc]
      nlinarith
    · simp only [h0, h1, if_false]
      exact ih (f1 :: ft)
        (by simpa using hlen)
        (List.Pairwise.of_cons hx)
        (fun f hfm => hf f (List.mem_cons_of_mem _ hfm))
        (by simp)

theorem npInterp_mono {d d' : ℚ} (hd : d ≤ d') :
    ∀ (xp fp : List ℚ), xp.length = fp.length →
    List.Pairwise (· < ·) xp → List.Pairwise (· ≤ ·) fp →
    npInterp d xp fp ≤ npInterp d' xp fp := by
  intro xp
  induction xp with
  | nil => intro fp _ _ _; simp [npInterp]
  | cons x0 xs ih =>
    intro fp hlen hx hf
    rcases fp with _ | ⟨f0, fs⟩
    · simp at hlen
    rcases xs with _ | ⟨x1, xt⟩
    · have : fs = [] := by simpa using hlen.symm
      subst this
      simp [npInterp]
    rcases fs with _ | ⟨f1, ft⟩
    · simp at hlen
    have hx01 : x0 < x1 := (List.pairwise_cons.mp hx).1 x1 (by simp)
    have hf01 : f0 ≤ f1 := (List.pairwise_cons.mp hf).1 f1 (by simp)
    have hfge : ∀ f ∈ f0 :: f1 :: ft, f0 ≤ f := by
      intro f hfm
      rcases List.mem_cons.mp hfm with h | h
      · exact h ▸ le_refl _
      · exact (List.pairwise_cons.mp hf).1 f h
    by_cases h0' : d' ≤ x0
    · have h0 : d ≤ x0 := le_trans hd h0'
      simp [npInterp, h0, h0']
    by_cases h0 : d ≤ x0
    · -- `d` clamps to `f0`; the value at `d'` is at least `f0`
      have := npInterp_ge d' f0 (x0 :: x1 :: xt) (f0 :: f1 :: ft) hlen hx hfge (by simp)
      simpa [npInterp, h0] using this
    by_cases h1' : d' ≤ x1
    · have h1 : d ≤ x1 := le_trans hd h1'
      simp only [npInterp, h0, h0', h1, h1', if_false, if_true]
      have step : (f1 - f0) * (d - x0) ≤ (f1 - f0) * (d' - x0) :=
        mul_le_mul_of_nonneg_left (by linarith) (by linarith)
      have hq : (f1 - f0) * (d - x0) / (x1 - x0) ≤ (f1 - f0) * (d' - x0) / (x1 - x0) :=
        (div_le_div_iff_of_pos_right (by linarith : (0 : ℚ) < x1 - x0)).mpr step
      linarith
    · by_cases h1 : d ≤ x1
      · -- `d` is in the first segment, `d'` beyond it
        simp only [npInterp, h0, h0', h1, h1', if_false, if_true]
        have hseg : f0 + (f1 - f0) * (d - x0) / (x1 - x0) ≤ f1 := by
          have hr0 : 0 ≤ (d - x0) / (x1 - x0) :=
            div_nonneg (by linarith) (by linarith)
          have hr1 : (d - x0) / (x1 - x0) ≤ 1 := by
            rw [div_le_one (by linarith)]; linarith
          rw [mul_div_assoc]
          nlinarith
        have hrest : f1 ≤ npInterp d' (x1 :: xt) (f1 :: ft) := by
          refine npInterp_ge d' f1 (x1 :: xt) (f1 :: ft) (by simpa using hlen)
            (List.Pairwise.of_cons hx) ?_ (by simp)
          intro f hfm
          rcases List.mem_cons.mp hfm with h | h
          · exact h ▸ le_refl _
          · exact (List.pairwise_cons.mp (List.Pairwise.of_cons hf)).1 f h
        linarith
      · simp only [npInterp, h0, h0', h1, h1', if_false]
        exact ih (f1 :: ft) (by simpa using hlen)
          (List.Pairwise.of_cons hx) (List.Pairwise.of_cons hf)

/-! ## Facts about `ranks` and `quantileValue` -/

theorem ranks_length (n : ℕ) : (ranks n).length = n := by simp [ranks]

theorem ranks_pairwise_le (n : ℕ) : List.Pairwise (· ≤ ·) (ranks n) := by
  unfold ranks
  refine List.pairwise_map.mpr ?_
  refine (List.pairwise_lt_range n).imp ?_
  intro a b hab
  have h : (a : ℚ) < b := by exact_mod_cast hab
  linarith

theorem ranks_mem_le (n : ℕ) : ∀ f ∈ ranks n, f ≤ (n : ℚ) := by
  unfold ranks
  intro f hf
  rcases List.mem_map.mp hf with ⟨i, hi, rfl⟩
  have h : i < n := List.mem_range.mp hi
  have h2 : (i : ℚ) + 1 ≤ n := by exact_mod_cast h
  linarith

theorem ranks_mem_nonneg (n : ℕ) : ∀ f ∈ ranks n, 0 ≤ f := by
  unfold ranks
  intro f hf
  rcases List.mem_map.mp hf with ⟨i, _, rfl⟩
  positivity

theorem quantileValue_nonneg (d : EFloat) (uniq : List ℚ)
    (hs : List.Pairwise (· < ·) uniq) (hne : uniq ≠ []) :
    0 ≤ quantileValue d uniq := by
  unfold quantileValue
  split_ifs
  · exact le_refl 0
  · positivity
  · rcases d with _ | _ | _ | x
    · simp
    · simp
    · simp
    · exact npInterp_ge x 0 uniq (ranks uniq.length) (ranks_length _).symm hs
        (ranks_mem_nonneg _) hne

theorem quantileValue_le (d : EFloat) (uniq : List ℚ)
    (hs : List.Pairwise (· < ·) uniq) (hne : uniq ≠ []) :
    quantileValue d uniq ≤ (uniq.length : ℚ) := by
  unfold quantileValue
  split_ifs
  · positivity
  · exact le_refl _
  · rcases d with _ | _ | _ | x
    · positivity
    · positivity
    · positivity
    · exact npInterp_le x uniq.length uniq (ranks uniq.length) (ranks_length _).symm hs
        (ranks_mem_le _) hne

theorem quantileValue_fin_mono {x1 x2 : ℚ} (hx : x1 ≤ x2) (uniq : List ℚ)
    (hs : List.Pairwise (· < ·) uniq) (hne : uniq ≠ []) :
    quantileValue (.fin x1) uniq ≤ quantileValue (.fin x2) uniq := by
  have hmnmx : npMin uniq ≤ npMax uniq := npMin_le (npMax_mem hne)
  by_cases h1 : x1 < npMin uniq
  · have e1 : quantileValue (.fin x1) uniq = 0 := by
      simp [quantileValue, EFloat.ltQ, EFloat.isnan, h1]
    rw [e1]
    exact quantileValue_nonneg _ _ hs hne
  · have h1' : npMin uniq ≤ x1 := not_lt.mp h1
    by_cases h2 : npMax uniq < x2
    · have e2 : quantileValue (.fin x2) uniq = uniq.length := by
        have hn2 : ¬ x2 < npMin uniq := by linarith
        simp [quantileValue, EFloat.ltQ, EFloat.gtQ, EFloat.isnan, EFloat.isinf, hn2, h2]
      rw [e2]
      exact quantileValue_le _ _ hs hne
    · have h2' : x2 ≤ npMax uniq := not_lt.mp h2
      have hn1 : ¬ npMax uniq < x1 := by linarith
      have hn2 : ¬ x2 < npMin uniq := by linarith
      have e1 : quantileValue (.fin x1) uniq = npInterp x1 uniq (ranks uniq.length) := by
        simp [quantileValue, EFloat.ltQ, EFloat.gtQ, EFloat.isnan, EFloat.isinf, h1, hn1]
      have e2 : quantileValue (.fin x2) uniq = npInterp x2 uniq (ranks uniq.length) := by
        simp [quantileValue, EFloat.ltQ, EFloat.gtQ, EFloat.isnan, EFloat.isinf, hn2, h2]
      rw [e1, e2]
      exact npInterp_mono hx uniq (ranks uniq.length) (ranks_length _).symm hs
        (ranks_pairwise_le _)

/-! ## Antitonicity of the Gumbel p-value (exact arithmetic) -/

theorem gumbelBeta_nonneg (V : ℝ) : 0 ≤ gumbelBeta V := by
  unfold gumbelBeta
  positivity

theorem gumbelP_antitone {E V x1 x2 : ℝ} (hx : x1 ≤ x2) :
    gumbelP E V x2 ≤ gumbelP E V x1 := by
  unfold gumbelP fGumbelCDF
  rcases eq_or_lt_of_le (gumbelBeta_nonneg V) with hb0 | hbpos
  · rw [← hb0]
    simp
  · have h1 : (x1 - gumbelMode E V) / gumbelBeta V ≤ (x2 - gumbelMode E V) / gumbelBeta V :=
      (div_le_div_iff_of_pos_right hbpos).mpr (sub_le_sub_right hx _)
    have h2 : Real.exp (-((x2 - gumbelMode E V) / gumbelBeta V)) ≤
        Real.exp (-((x1 - gumbelMode E V) / gumbelBeta V)) :=
      Real.exp_le_exp.mpr (by linarith)
    have h3 : Real.exp (-Real.exp (-((x1 - gumbelMode E V) / gumbelBeta V))) ≤
        Real.exp (-Real.exp (-((x2 - gumbelMode E V) / gumbelBeta V))) :=
      Real.exp_le_exp.mpr (by linarith)
    linarith

theorem quantileValue_eq_claimRank (d : EFloat) (hd : d ≠ .nan) (uniq : List ℚ) :
    quantileValue d uniq = claimQuantileRank d uniq (uniq.length : ℚ) := by
  have hnan : d.isnan = false := by
    rcases d with _ | _ | _ | x
    · exact absurd rfl hd
    · rfl
    · rfl
    · rfl
  unfold quantileValue claimQuantileRank
  rw [hnan]
  simp

/-! ## The stitch cursor recurrence (C3) -/

theorem stitchStep_cursor (sp : List ℚ) (nS : ℕ) (W : ℚ) (nT : ℕ) (de : Bool)
    (i : ℕ) (e prevE : ℚ) (st : StitchState) :
    (stitchStep sp nS W nT de i e prevE st).dblPseudoEventT =
      if i = 0 then 0
      else if W > e - prevE then st.dblPseudoEventT + (e - prevE)
      else st.dblPseudoEventT + W := by
  by_cases hi : i = 0
  · simp [stitchStep, hi]
  · by_cases hw : W > e - prevE
    · simp [stitchStep, hi, hw]
    · simp [stitchStep, hi, hw]

theorem stitchStep_evts (sp : List ℚ) (nS : ℕ) (W : ℚ) (nT : ℕ) (de : Bool)
    (i : ℕ) (e prevE : ℚ) (st : StitchState) :
    (stitchStep sp nS W nT de i e prevE st).vecPseudoEventT =
      st.vecPseudoEventT ++ [(stitchStep sp nS W nT de i e prevE st).dblPseudoEventT] := by
  by_cases hi : i = 0
  · simp [stitchStep, hi]
  · by_cases hw : W > e - prevE
    · simp [stitchStep, hi, hw]
    · simp [stitchStep, hi, hw]

theorem stitchLoop_evts (sp : List ℚ) (nS : ℕ) (W : ℚ) (nT : ℕ) (de : Bool) :
    ∀ (es : List ℚ) (i : ℕ) (prevE : ℚ) (st : StitchState),
    (stitchLoop sp nS W nT de es i prevE st).1.vecPseudoEventT =
      st.vecPseudoEventT ++ cursorScan W es i prevE st.dblPseudoEventT := by
  intro es
  induction es with
  | nil => intro i prevE st; simp [stitchLoop, cursorScan]
  | cons e rest ih =>
    intro i prevE st
    have hstep : stitchLoop sp nS W nT de (e :: rest) i prevE st =
        stitchLoop sp nS W nT de rest (i + 1) e
          (stitchStep sp nS W nT de i e prevE st) := rfl
    rw [hstep, ih, stitchStep_evts, stitchStep_cursor]
    simp [cursorScan]

theorem cursorScan_length (W : ℚ) :
    ∀ (es : List ℚ) (i : ℕ) (prevE cur : ℚ),
    (cursorScan W es i prevE cur).length = es.length := by
  intro es
  induction es with
  | nil => intro i prevE cur; rfl
  | cons e rest ih => intro i prevE cur; simp [cursorScan, ih]

theorem cursorScan_succ (W : ℚ) :
    ∀ (es : List ℚ) (i : ℕ) (prevE cur : ℚ) (j : ℕ), j + 1 < es.length →
    (cursorScan W es i prevE cur).getD (j + 1) 0 =
      (if W > es.getD (j + 1) 0 - es.getD j 0
       then (cursorScan W es i prevE cur).getD j 0 + (es.getD (j + 1) 0 - es.getD j 0)
       else (cursorScan W es i prevE cur).getD j 0 + W) := by
  intro es
  induction es with
  | nil => intro i prevE cur j h; simp at h
  | cons e rest ih =>
    intro i prevE cur j h
    rcases j with _ | j'
    · rcases rest with _ | ⟨e1, rest'⟩
      · simp at h
      · simp [cursorScan, Nat.succ_ne_zero]
    · have h' : j' + 1 < rest.length := by simpa using h
      have hscan : cursorScan W (e :: rest) i prevE cur =
          (if i = 0 then 0 else if W > e - prevE then cur + (e - prevE) else cur + W) ::
            cursorScan W rest (i + 1) e
              (if i = 0 then 0 else if W > e - prevE then cur + (e - prevE) else cur + W) :=
        rfl
      rw [hscan]
      rw [List.getD_cons_succ, List.getD_cons_succ, List.getD_cons_succ,
        List.getD_cons_succ]
      exact ih (i + 1) e _ j' h'

theorem getPseudoSpikeVectors_snd (sp es : List ℚ) (W : ℚ) (de : Bool) :
    (getPseudoSpikeVectors sp es W de).2 = cursorScan W (npSort es) 0 0 0 := by
  have h : (getPseudoSpikeVectors sp es W de).2 =
      ((stitchLoop (npSort sp) (npSort sp).length W (npSort es).length de
        (npSort es) 0 0 ⟨[], [], 0, 0, none⟩).1).vecPseudoEventT := rfl
  rw [h, stitchLoop_evts]
  simp

/-! ## Orchestrator control flow (C2, C4, C9) -/

theorem getEventColumn_badShape {a : EventArray} (h : a.badShape) :
    getEventColumn a = .error .shapeError := by
  rcases a with v | m
  · exact h.elim
  · rcases h with ⟨hc, hr⟩
    simp only [getEventColumn]
    rw [if_neg (by omega), if_neg (by omega)]

theorem getEventColumn_ok {a : EventArray} (hp : a.proper) (hb : ¬ a.badShape) :
    ∃ col, getEventColumn a = .ok col ∧ col ≠ [] := by
  rcases a with v | m
  · exact ⟨v, rfl, hp⟩
  · rcases hp with ⟨hne, hc1, hrect⟩
    by_cases hc : (m.headD []).length < 3
    · refine ⟨m.map (fun r => r.headD 0), ?_, ?_⟩
      · simp only [getEventColumn]
        rw [if_pos hc, if_pos ?_]
        rw [List.all_eq_true]
        intro r hr
        have hl : 0 < r.length := by
          rw [hrect r hr]; omega
        cases r with
        | nil => simp at hl
        | cons x xs => rfl
      · intro hmap
        exact hne (List.map_eq_nil_iff.mp hmap)
    · have hc3 : 3 ≤ (m.headD []).length := not_lt.mp hc
      have hrow : m.length < 3 := by
        by_contra hge
        exact hb ⟨hc3, not_lt.mp hge⟩
      rcases m with _ | ⟨r, m'⟩
      · exact absurd rfl hne
      · refine ⟨r, ?_, ?_⟩
        · simp only [getEventColumn]
          rw [if_neg hc, if_pos hrow]
          rfl
        · intro hnil
          rw [hnil] at hc3
          simp at hc3

theorem getZetaPScalar_ok (d : ℚ) (v : List ℚ) (dq : Bool) (ppf : ℚ → ℚ)
    (gpz : List ℚ → ℚ → ℚ × ℚ) (hv : v ≠ []) :
    ∃ pz, getZetaPScalar d v dq ppf gpz = .ok pz := by
  have hve : v.isEmpty = false := by
    cases v with
    | nil => exact absurd rfl hv
    | cons a l => rfl
  unfold getZetaPScalar
  cases dq with
  | false => exact ⟨_, rfl⟩
  | true =>
    rw [if_pos rfl, hve]
    simp only [Bool.false_eq_true, if_false]
    exact ⟨_, rfl⟩

theorem getZetaPScalar_map_ok {d : ℚ} {v : List ℚ} {dq : Bool} {ppf : ℚ → ℚ}
    {gpz : List ℚ → ℚ → ℚ × ℚ} {f : ℚ × ℚ → ZetaResult} (hv : v ≠ []) :
    ∃ r, (getZetaPScalar d v dq ppf gpz).map f = .ok r := by
  obtain ⟨pz, hpz⟩ := getZetaPScalar_ok d v dq ppf gpz hv
  rw [hpz]
  exact ⟨f pz, rfl⟩

theorem calcZetaCore_ok (sp col : List ℚ) (W : ℚ) (n : ℕ) (dq : Bool) (jit : ℚ)
    (stitch : Bool) (perms : ℕ → List ℕ) (ppf : ℚ → ℚ) (gpz : List ℚ → ℚ → ℚ × ℚ)
    (hcolne : col ≠ []) (hsp : sp ≠ []) (hn : 1 ≤ n) :
    ∃ r, calcZetaCore sp col W n dq jit stitch perms ppf gpz = .ok r := by
  have h1 : col.isEmpty = false := by
    cases col with
    | nil => exact absurd rfl hcolne
    | cons a l => rfl
  have h2 : sp.isEmpty = false := by
    cases sp with
    | nil => exact absurd rfl hsp
    | cons a l => rfl
  unfold calcZetaCore
  rw [h1, h2]
  simp only [Bool.false_eq_true, if_false]
  split_ifs
  all_goals first
  | exact ⟨defaultZeta, rfl⟩
  | · apply getZetaPScalar_map_ok
      apply List.length_pos.mp
      simp only [List.length_map, List.length_range]
      omega

/-! ## Deviation-curve facts (C4, C9) -/

theorem machineEps_pos : 0 < machineEps := by norm_num [machineEps]

theorem replaceGroupAux_length (v eps k : ℚ) :
    ∀ (l : List ℚ) (j : ℕ), (replaceGroupAux v eps k l j).length = l.length := by
  intro l
  induction l with
  | nil => intro j; rfl
  | cons x rest ih =>
    intro j
    unfold replaceGroupAux
    split_ifs <;> simp [ih]

theorem applyUniqueOffsets_length (xs : List ℚ) :
    (applyUniqueOffsets xs).length = xs.length := by
  unfold applyUniqueOffsets
  generalize vecNotUniqueOf xs = dups
  induction dups generalizing xs with
  | nil => rfl
  | cons d rest ih =>
    rw [List.foldl_cons]
    rw [ih (replaceGroupAux d machineEps (xs.count d) xs 0)]
    exact replaceGroupAux_length _ _ _ _ _

theorem getSpikeT_ne_nil (sp ev : List ℚ) (W : ℚ) : getSpikeT sp ev W ≠ [] := by
  unfold getSpikeT
  exact List.cons_ne_nil _ _

theorem npLinspace_length (a b : ℚ) (n : ℕ) : (npLinspace a b n).length = n := by
  match n with
  | 0 => rfl
  | 1 => rfl
  | Nat.succ (Nat.succ m) => simp [npLinspace]

theorem getTempOffsetOne_times_ne_nil (sp ev : List ℚ) (W : ℚ) :
    (getTempOffsetOne sp ev W).times ≠ [] := by
  unfold getTempOffsetOne
  intro h
  simp only at h
  rcases npUnique_eq_nil.mp h with h'
  split_ifs at h' with hd
  · have hlen := applyUniqueOffsets_length (getSpikeT sp ev W)
    rw [h'] at hlen
    exact getSpikeT_ne_nil sp ev W (List.length_eq_zero.mp hlen.symm)
  · exact getSpikeT_ne_nil sp ev W h'

theorem getTempOffsetOne_deviation_length (sp ev : List ℚ) (W : ℚ) :
    (getTempOffsetOne sp ev W).deviation.length = (getTempOffsetOne sp ev W).times.length := by
  unfold getTempOffsetOne
  simp only [center, List.length_map, List.length_zipWith, npLinspace_length]
  omega

theorem getTempOffsetOne_deviation_ne_nil (sp ev : List ℚ) (W : ℚ) :
    (getTempOffsetOne sp ev W).deviation ≠ [] := by
  intro h
  have h1 := getTempOffsetOne_deviation_length sp ev W
  rw [h, List.length_nil] at h1
  exact getTempOffsetOne_times_ne_nil sp ev W (List.length_eq_zero.mp h1.symm)

theorem center_mean_zero_of_ne_nil {l : List ℚ} (h : l ≠ []) :
    npMean (center l) = 0 := npMean_center h

theorem center_ne_nil {l : List ℚ} (h : l ≠ []) : center l ≠ [] := by
  intro hc
  unfold center at hc
  exact h (List.map_eq_nil_iff.mp hc)

theorem resampleDeviation_snd_mean_zero (P : List ℚ × List ℚ) (W jit : ℚ)
    (perms : ℕ → List ℕ) (i : ℕ) :
    npMean (resampleDeviation P W jit perms i).2 = 0 := by
  simp only [resampleDeviation]
  exact npMean_center (getTempOffsetOne_deviation_ne_nil _ _ _)

theorem except_map_eq_ok {α β : Type} {x : Except ZErr α} {f : α → β} {r : β}
    (h : x.map f = .ok r) : ∃ a, x = .ok a ∧ r = f a := by
  cases x with
  | error e => simp [Except.map] at h
  | ok a =>
    refine ⟨a, rfl, ?_⟩
    simpa [Except.map] using h.symm

theorem calcZetaCore_ok_shape {sp col : List ℚ} {W : ℚ} {n : ℕ} {dq : Bool} {jit : ℚ}
    {stitch : Bool} {perms : ℕ → List ℕ} {ppf : ℚ → ℚ} {gpz : List ℚ → ℚ → ℚ × ℚ}
    {r : ZetaResult}
    (h : calcZetaCore sp col W n dq jit stitch perms ppf gpz = .ok r) :
    (r.vecRealDeviation = none ∧ r.cellRandDeviation = none) ∨
    (r.vecRealDeviation = some (center (getTempOffsetOne
        (pseudoData (reduceSpikes sp col W jit) col W stitch).1
        (pseudoData (reduceSpikes sp col W jit) col W stitch).2 W).deviation) ∧
      r.cellRandDeviation = some (((List.range n).map
        (resampleDeviation (pseudoData (reduceSpikes sp col W jit) col W stitch) W jit
          perms)).map Prod.snd)) := by
  simp only [calcZetaCore] at h
  split_ifs at h
  all_goals first
  | exact Except.noConfusion h
  | (left
     rw [← Except.ok.inj h]
     exact ⟨rfl, rfl⟩)
  | (obtain ⟨pz, hx, hr⟩ := except_map_eq_ok h
     right
     rw [hr]
     exact ⟨rfl, rfl⟩)

/-! ## Duplicate-disambiguation machinery (C7) -/

theorem getSpikeT_mem_bounds {sp ev : List ℚ} {W : ℚ} (hW : 0 < W) :
    ∀ x ∈ getSpikeT sp ev W, 0 ≤ x ∧ x ≤ W := by
  intro x hx
  unfold getSpikeT at hx
  rcases List.mem_cons.mp hx with h | h
  · subst h
    exact ⟨le_refl 0, le_of_lt hW⟩
  rcases List.mem_append.mp h with h | h
  · rw [mem_npSort] at h
    rcases List.mem_flatMap.mp h with ⟨e, _, hmem⟩
    rcases List.mem_map.mp hmem with ⟨s, hs, rfl⟩
    rcases List.mem_filter.mp hs with ⟨_, hcond⟩
    simp only [Bool.and_eq_true, decide_eq_true_eq] at hcond
    constructor
    · linarith [hcond.2]
    · linarith [hcond.1]
  · simp only [List.mem_singleton] at h
    subst h
    exact ⟨le_of_lt hW, le_refl _⟩

theorem getSpikeT_body_lt {sp ev : List ℚ} {W : ℚ} {x : ℚ}
    (hx : x ∈ npSort (ev.flatMap (fun e =>
      (sp.filter (fun s => decide (s < e + W) && decide (e < s))).map (· - e)))) :
    x < W := by
  rw [mem_npSort] at hx
  rcases List.mem_flatMap.mp hx with ⟨e, _, hmem⟩
  rcases List.mem_map.mp hmem with ⟨s, hs, rfl⟩
  rcases List.mem_filter.mp hs with ⟨_, hcond⟩
  simp only [Bool.and_eq_true, decide_eq_true_eq] at hcond
  linarith [hcond.1]

theorem getSpikeT_count_top {sp ev : List ℚ} {W : ℚ} (hW : 0 < W) :
    (getSpikeT sp ev W).count W = 1 := by
  unfold getSpikeT
  rw [List.count_cons, List.count_append]
  have h0 : ((0 : ℚ) == W) = false := by
    simp only [beq_eq_false_iff_ne, ne_eq]
    intro h
    rw [← h] at hW
    exact lt_irrefl 0 hW
  have hbody : (npSort (ev.flatMap (fun e =>
      (sp.filter (fun s => decide (s < e + W) && decide (e < s))).map (· - e)))).count W
      = 0 := by
    rw [List.count_eq_zero]
    intro hmem
    exact lt_irrefl W (getSpikeT_body_lt hmem)
  rw [hbody, h0]
  simp

theorem sorted_le_getLast :
    ∀ (l : List ℚ) (hne : l ≠ []), List.Sorted (· ≤ ·) l →
      ∀ x ∈ l, x ≤ l.getLast hne := by
  intro l
  induction l with
  | nil => intro hne; exact absurd rfl hne
  | cons a t ih =>
    intro hne hs x hx
    cases t with
    | nil =>
      simp only [List.mem_singleton] at hx
      subst hx
      rfl
    | cons b u =>
      rw [List.getLast_cons (List.cons_ne_nil b u)]
      rcases List.mem_cons.mp hx with h | h
      · subst h
        have hmem := List.getLast_mem (List.cons_ne_nil b u)
        exact le_trans ((List.pairwise_cons.mp hs).1 _ hmem) (le_refl _)
      · exact ih (List.cons_ne_nil b u) (List.Pairwise.of_cons hs) x h

theorem sorted_getLast_eq_max (l : List ℚ) (hne : l ≠ [])
    (hs : List.Sorted (· ≤ ·) l) (M : ℚ) (hM : M ∈ l) (hub : ∀ x ∈ l, x ≤ M) :
    l.getLast hne = M :=
  le_antisymm (hub _ (List.getLast_mem hne)) (sorted_le_getLast l hne hs M hM)

theorem mem_dropLast_of_ne_getLast {l : List ℚ} (hne : l ≠ []) {x : ℚ}
    (hx : x ∈ l) (hxl : x ≠ l.getLast hne) : x ∈ l.dropLast := by
  conv at hx => rw [← List.dropLast_append_getLast hne]
  rcases List.mem_append.mp hx with h | h
  · exact h
  · simp only [List.mem_singleton] at h
    exact absurd h hxl

theorem filter_eq_singleton_of {v : ℚ} {p : ℚ → Bool} :
    ∀ {l : List ℚ}, l.Nodup → v ∈ l → p v = true →
      (∀ u ∈ l, u ≠ v → p u = false) → l.filter p = [v] := by
  intro l
  induction l with
  | nil => intro _ hv; simp at hv
  | cons a t ih =>
    intro hnd hv hpv hother
    rcases List.mem_cons.mp hv with h | h
    · subst h
      rw [List.filter_cons_of_pos hpv]
      have : t.filter p = [] := by
        rw [List.filter_eq_nil_iff]
        intro u hu
        have huv : u ≠ v := by
          intro he
          subst he
          exact (List.nodup_cons.mp hnd).1 hu
        rw [hother u (List.mem_cons_of_mem _ hu) huv]
        simp
      rw [this]
    · have hav : a ≠ v := by
        intro he
        subst he
        exact (List.nodup_cons.mp hnd).1 h
      rw [List.filter_cons_of_neg (by rw [hother a (List.mem_cons_self a t) hav]; simp)]
      exact ih (List.nodup_cons.mp hnd).2 h hpv
        (fun u hu huv => hother u (List.mem_cons_of_mem _ hu) huv)

theorem replaceGroupAux_newval_mem (v eps k : ℚ) :
    ∀ (l : List ℚ) (j0 j : ℕ), j0 ≤ j → j < j0 + l.count v →
      (v + eps * ((j : ℚ) - k / 2 - 1)) ∈ replaceGroupAux v eps k l j0 := by
  intro l
  induction l with
  | nil =>
    intro j0 j h1 h2
    simp only [List.count_nil, Nat.add_zero] at h2
    omega
  | cons x rest ih =>
    intro j0 j h1 h2
    by_cases hx : x = v
    · subst hx
      unfold replaceGroupAux
      rw [if_pos rfl]
      by_cases hj : j = j0
      · subst hj
        exact List.mem_cons_self _ _
      · refine List.mem_cons_of_mem _ (ih (j0 + 1) j (by omega) ?_)
        rw [List.count_cons] at h2
        simp only [beq_self_eq_true, if_true] at h2
        omega
    · unfold replaceGroupAux
      rw [if_neg hx]
      refine List.mem_cons_of_mem _ (ih j0 j h1 ?_)
      rw [List.count_cons] at h2
      have : (x == v) = false := by
        simp only [beq_eq_false_iff_ne, ne_eq]
        exact hx
      rw [this] at h2
      simpa using h2

theorem replaceGroupAux_mem_of_ne (v eps k : ℚ) :
    ∀ (l : List ℚ) (j0 : ℕ) (u : ℚ), u ∈ l → u ≠ v →
      u ∈ replaceGroupAux v eps k l j0 := by
  intro l
  induction l with
  | nil => intro j0 u hu; simp at hu
  | cons x rest ih =>
    intro j0 u hu huv
    rcases List.mem_cons.mp hu with h | h
    · subst h
      unfold replaceGroupAux
      rw [if_neg huv]
      exact List.mem_cons_self _ _
    · unfold replaceGroupAux
      split_ifs
      · exact List.mem_cons_of_mem _ (ih (j0 + 1) u h huv)
      · exact List.mem_cons_of_mem _ (ih j0 u h huv)

theorem vecNotUniqueOf_eq_singleton {sp ev : List ℚ} {W v : ℚ} {k : ℕ}
    (hW : 0 < W) (hk : (getSpikeT sp ev W).count v = k) (hk2 : 2 ≤ k)
    (hone : ∀ u ∈ getSpikeT sp ev W, u ≠ v → (getSpikeT sp ev W).count u = 1) :
    vecNotUniqueOf (getSpikeT sp ev W) = [v] := by
  set xs := getSpikeT sp ev W with hxs
  have hxsne : xs ≠ [] := getSpikeT_ne_nil sp ev W
  have hune : npUnique xs ≠ [] := fun h => hxsne (npUnique_eq_nil.mp h)
  have hvmem : v ∈ xs := by
    apply List.count_pos_iff.mp
    omega
  have hWmem : W ∈ xs := by
    apply List.count_pos_iff.mp
    rw [getSpikeT_count_top hW]
    omega
  have hvW : v ≠ W := by
    intro he
    rw [he, getSpikeT_count_top hW] at hk
    omega
  have hlast : (npUnique xs).getLast hune = W := by
    refine sorted_getLast_eq_max _ hune (npUnique_sorted xs) W
      (mem_npUnique.mpr hWmem) ?_
    intro x hx
    exact (getSpikeT_mem_bounds hW x (mem_npUnique.mp hx)).2
  unfold vecNotUniqueOf
  refine filter_eq_singleton_of ?_ ?_ ?_ ?_
  · exact (npUnique_nodup xs).sublist (List.dropLast_sublist _)
  · refine mem_dropLast_of_ne_getLast hune (mem_npUnique.mpr hvmem) ?_
    rw [hlast]
    exact hvW
  · rw [hk]
    simp only [decide_eq_true_eq]
    omega
  · intro u hu huv
    have humem : u ∈ xs := mem_npUnique.mp (List.dropLast_subset _ hu)
    rw [hone u humem huv]
    simp

theorem getTempOffsetOne_times_single_dup {sp ev : List ℚ} {W v : ℚ} {k : ℕ}
    (hW : 0 < W) (hk : (getSpikeT sp ev W).count v = k) (hk2 : 2 ≤ k)
    (hone : ∀ u ∈ getSpikeT sp ev W, u ≠ v → (getSpikeT sp ev W).count u = 1) :
    (getTempOffsetOne sp ev W).times =
      npUnique (replaceGroupAux v machineEps k (getSpikeT sp ev W) 0) := by
  have hsingle := vecNotUniqueOf_eq_singleton hW hk hk2 hone
  unfold getTempOffsetOne
  simp only [hsingle]
  rw [if_pos (List.cons_ne_nil v [])]
  unfold applyUniqueOffsets
  rw [hsingle, List.foldl_cons, List.foldl_nil, hk]

/-! ## Claim theorems -/

/-- C1: the claim says the Gumbel saturation fallback recomputes the
p-value as `exp((mu - x)/beta)`.  Line 227 of the source instead computes
`exp(dblMode - arrX[i] / dblBeta)` (Python precedence binds the division
first).  At `dblMode = 1`, `dblBeta = 2`, `x = 4` the code's value
`exp(-1)` differs from the spec's `exp(-3/2)`: the code is a slip against
the spec's (and the moment-matching derivation's) intent. -/
theorem gumbelTail_formula_mismatch :
    gumbelTailP 1 2 4 ≠ gumbelTailPSpec 1 2 4 := by
  unfold gumbelTailP gumbelTailPSpec
  intro h
  rw [Real.exp_eq_exp] at h
  norm_num at h

/-- C3 (counterexample): for the sorted, disjoint, non-overlapping input
`spikes = [1/2, 21/2]`, `events = [0, 10]`, `W = 1`, the returned
pseudo-event times are `[0, 1]` — their difference is `1`, not the real
inter-event gap `10` asserted by the claim. -/
theorem stitch_nonoverlap_gap_counterexample :
    (getPseudoSpikeVectors [1/2, 21/2] [0, 10] 1 false).2 = [0, 1] ∧
    ((1 : ℚ) - 0 ≠ 10 - 0) := by
  constructor
  · with_unfolding_all decide
  · norm_num

/-- C3 (amended): for sorted event input and a pair of adjacent trials
whose inter-event gap exceeds the window duration (non-overlapping), the
difference of the two returned pseudo-event times equals the *window
duration* `dblWindowDur` — the stitch cursor advances by the full window,
not by the real gap. -/
theorem stitch_nonoverlap_advances_window (vecSpikeTimes vecEventTimes : List ℚ)
    (dblWindowDur : ℚ) (j : ℕ)
    (hsorted : List.Sorted (· ≤ ·) vecEventTimes)
    (hj : j + 1 < vecEventTimes.length)
    (hgap : dblWindowDur < vecEventTimes.getD (j + 1) 0 - vecEventTimes.getD j 0) :
    (getPseudoSpikeVectors vecSpikeTimes vecEventTimes dblWindowDur false).2.getD (j + 1) 0 -
      (getPseudoSpikeVectors vecSpikeTimes vecEventTimes dblWindowDur false).2.getD j 0 =
      dblWindowDur := by
  rw [getPseudoSpikeVectors_snd, npSort_eq_self hsorted,
    cursorScan_succ dblWindowDur vecEventTimes 0 0 0 j hj]
  rw [if_neg (lt_asymm hgap)]
  ring

/-- C5 (counterexample): with null maxima `[1/2, 1/2, 3/4]` (count 3,
but only 2 distinct values) and observed maximum `1`, the code returns
`p = 1 - 2/3 = 1/3`, while the claim's formula (`N` = count of null
maxima) would give `1 - 3/4 = 1/4`. -/
theorem quantileP_claim_counterexample :
    quantileP (.fin 1) [1/2, 1/2, 3/4] = 1/3 ∧
    claimQuantileP (.fin 1) [1/2, 1/2, 3/4] = 1/4 := by
  constructor
  · with_unfolding_all decide
  · with_unfolding_all decide

/-- C5 (amended): in direct-quantile mode, for every non-empty null
vector and every non-NaN observed maximum `d`, the p-value is
`1 - r/(N+1)` where `N` is the number of *distinct* null maxima and `r`
is the interpolated rank of `d` among the sorted deduplicated null
maxima (0 below the minimum; `N` above the maximum or at infinity). -/
theorem quantileP_eq_amended (vecMaxRandD : List ℚ) (hne : vecMaxRandD ≠ [])
    (d : EFloat) (hd : d ≠ .nan) :
    quantileP d vecMaxRandD = amendedQuantileP d vecMaxRandD := by
  unfold quantileP amendedQuantileP
  rw [quantileValue_eq_claimRank d hd, npUnique_eq_sort_dedup,
    (npSort_perm vecMaxRandD.dedup).length_eq]
  ring_nf

/-- C6: for a fixed non-empty null-maxima vector and observed maxima
`x1 < x2`, the p-value at `x2` is at most the p-value at `x1`, in both
the direct-quantile branch and the (exact-arithmetic) Gumbel branch of
`getZetaP`. -/
theorem getZetaP_monotone (vecMaxRandD : List ℚ) (hne : vecMaxRandD ≠ [])
    (x1 x2 : ℚ) (hx : x1 < x2) :
    quantileP (.fin x2) vecMaxRandD ≤ quantileP (.fin x1) vecMaxRandD ∧
    gumbelZetaP vecMaxRandD (x2 : ℝ) ≤ gumbelZetaP vecMaxRandD (x1 : ℝ) := by
  constructor
  · unfold quantileP
    have hu : npUnique vecMaxRandD ≠ [] := fun h => hne (npUnique_eq_nil.mp h)
    have hs : List.Pairwise (· < ·) (npUnique vecMaxRandD) := npUnique_sorted_lt _
    have hmono := quantileValue_fin_mono (le_of_lt hx) _ hs hu
    have hpos : (0 : ℚ) < 1 + ((npUnique vecMaxRandD).length : ℚ) := by positivity
    have hdiv := (div_le_div_iff_of_pos_right hpos).mpr hmono
    linarith
  · unfold gumbelZetaP
    exact gumbelP_antitone (by exact_mod_cast le_of_lt hx)

/-- C8 (counterexample): with sorted spikes `[0, 1, 2]`, a single event
at `0`, `dblUseMaxDur = 1`, `dblJitterSize = 1`, the code retains `[1, 2]`
(strict window), while the claim's closed interval `[start, stop] = [0, 5]`
would retain all of `[0, 1, 2]`: the first spike, which sits exactly at
`start`, is dropped. -/
theorem reduceSpikes_closed_counterexample :
    reduceSpikes [0, 1, 2] [0] 1 1 = [1, 2] ∧
    claimReduceSpikes [0, 1, 2] [0] 1 1 = [0, 1, 2] := by
  constructor
  · with_unfolding_all decide
  · with_unfolding_all decide

/-- C8 (amended): after the reduce-spikes step, for sorted nonempty spike
input, the retained spikes are exactly the input spikes in the *open*
interval `(start, stop)`, with
`start = max(firstSpikeTime, minEventTime - 5*dblUseMaxDur*dblJitterSize)`
and `stop = maxEventTime + 5*dblUseMaxDur*dblJitterSize`. -/
theorem reduceSpikes_open_interval (vecSpikeTimes vecEventT : List ℚ)
    (dblUseMaxDur dblJitterSize : ℚ)
    (hne : vecSpikeTimes ≠ []) (hsorted : List.Sorted (· ≤ ·) vecSpikeTimes) (t : ℚ) :
    t ∈ reduceSpikes vecSpikeTimes vecEventT dblUseMaxDur dblJitterSize ↔
      t ∈ vecSpikeTimes ∧
      max (vecSpikeTimes.headD 0)
        (npMin vecEventT - 5 * dblUseMaxDur * dblJitterSize) < t ∧
      t < npMax vecEventT + 5 * dblUseMaxDur * dblJitterSize := by
  unfold reduceSpikes
  rw [List.mem_filter]
  have harith : dblUseMaxDur * 5 * dblJitterSize = 5 * dblUseMaxDur * dblJitterSize := by
    ring
  rw [harith]
  simp [decide_eq_true_eq]

/-- C10: in direct-quantile mode with a non-empty null vector having `M`
distinct values, the returned p-value lies in `[1/(M+1), 1]` — in
particular it is strictly positive for every observed maximum, including
`+∞` — and a NaN observed maximum yields `p = 1` exactly. -/
theorem quantileP_range (vecMaxRandD : List ℚ) (hne : vecMaxRandD ≠ []) (d : EFloat) :
    1 / (((npUnique vecMaxRandD).length : ℚ) + 1) ≤ quantileP d vecMaxRandD ∧
    quantileP d vecMaxRandD ≤ 1 ∧
    0 < quantileP d vecMaxRandD ∧
    quantileP .nan vecMaxRandD = 1 := by
  have hu : npUnique vecMaxRandD ≠ [] := fun h => hne (npUnique_eq_nil.mp h)
  have hs : List.Pairwise (· < ·) (npUnique vecMaxRandD) := npUnique_sorted_lt _
  have h0 := quantileValue_nonneg d _ hs hu
  have hM := quantileValue_le d _ hs hu
  have hMpos : (0 : ℚ) < ((npUnique vecMaxRandD).length : ℚ) + 1 := by positivity
  have hlow : 1 / (((npUnique vecMaxRandD).length : ℚ) + 1) ≤ quantileP d vecMaxRandD := by
    unfold quantileP
    have hdiv : quantileValue d (npUnique vecMaxRandD) /
        (1 + ((npUnique vecMaxRandD).length : ℚ)) ≤
        ((npUnique vecMaxRandD).length : ℚ) / (1 + ((npUnique vecMaxRandD).length : ℚ)) :=
      (div_le_div_iff_of_pos_right (by positivity)).mpr hM
    have hfe : 1 - ((npUnique vecMaxRandD).length : ℚ) /
        (1 + ((npUnique vecMaxRandD).length : ℚ)) =
        1 / (((npUnique vecMaxRandD).length : ℚ) + 1) := by
      field_simp
      ring
    linarith
  refine ⟨hlow, ?_, ?_, ?_⟩
  · unfold quantileP
    have hdiv : 0 ≤ quantileValue d (npUnique vecMaxRandD) /
        (1 + ((npUnique vecMaxRandD).length : ℚ)) := by positivity
    linarith
  · have : (0 : ℚ) < 1 / (((npUnique vecMaxRandD).length : ℚ) + 1) := by positivity
    linarith
  · unfold quantileP
    have hval : quantileValue .nan (npUnique vecMaxRandD) = 0 := by
      simp [quantileValue, EFloat.ltQ, EFloat.isnan]
    rw [hval]
    simp

/-- C2 (counterexample): an input satisfying all of the claim's
preconditions (1-D float events, finite spikes, `dblUseMaxDur = 1 > 0`,
`intResampNum = 0 ≥ 0`, `dblJitterSize = 1 > 0`, shape not 2-D-ambiguous)
on which `calcZetaOne` nevertheless raises: with `intResampNum = 0` and
direct-quantile mode, `np.min` over the empty null-maxima vector
(line 148) raises `ValueError`. -/
theorem calcZetaOne_resampZero_raises :
    calcZetaOne [1/5, 2/5, 3/5, 4/5] (.oneD [0]) 1 0 true 1 false false
      (fun _ => []) (fun _ => 0) (fun _ _ => (0, 0)) = .error .valueError ∧
    ¬ (EventArray.oneD [0]).badShape := by
  constructor
  · with_unfolding_all decide
  · intro h
    exact h

/-- C2 (amended): under the interface preconditions plus a nonempty spike
train, a proper (nonempty, rectangular) event array and `intResampNum ≥ 1`,
`calcZetaOne` aborts with an exception if and only if the event array is
2-D with both dimensions at least `3`; otherwise it returns a result
record.  (With `intResampNum = 0` the direct-quantile branch raises — see
the counterexample.) -/
theorem calcZetaOne_error_iff_badShape (vecSpikeTimes : List ℚ)
    (arrEventTimes : EventArray) (dblUseMaxDur : ℚ) (intResampNum : ℕ)
    (boolDirectQuantile : Bool) (dblJitterSize : ℚ) (boolStitch boolParallel : Bool)
    (perms : ℕ → List ℕ) (ppf : ℚ → ℚ) (gpz : List ℚ → ℚ → ℚ × ℚ)
    (hW : 0 < dblUseMaxDur) (hjit : 0 < dblJitterSize)
    (hprop : arrEventTimes.proper) (hsp : vecSpikeTimes ≠ [])
    (hn : 1 ≤ intResampNum) :
    (∃ e, calcZetaOne vecSpikeTimes arrEventTimes dblUseMaxDur intResampNum
      boolDirectQuantile dblJitterSize boolStitch boolParallel perms ppf gpz =
        .error e) ↔ arrEventTimes.badShape := by
  constructor
  · rintro ⟨e, he⟩
    by_contra hb
    obtain ⟨col, hcol, hcolne⟩ := getEventColumn_ok hprop hb
    obtain ⟨r, hr⟩ := calcZetaCore_ok vecSpikeTimes col dblUseMaxDur intResampNum
      boolDirectQuantile dblJitterSize boolStitch perms ppf gpz hcolne hsp hn
    unfold calcZetaOne at he
    rw [hcol] at he
    simp only [Except.bind] at he
    rw [hr] at he
    exact Except.noConfusion he
  · intro hb
    refine ⟨.shapeError, ?_⟩
    unfold calcZetaOne
    rw [getEventColumn_badShape hb]
    rfl

/-- C4: whenever `calcZetaOne` hits an insufficient-data condition (fewer
than 3 spikes retained by the global window, or fewer than 3 points in
the real deviation curve), the returned record is the pre-allocated
default: `dblZetaP = 1`, `dblZETA = 0`, every curve field (`vecSpikeT`,
`vecRealDeviation`, `vecRealFrac`, `vecRealFracLinear`, `cellRandTime`,
`cellRandDeviation`, `intZETAIdx`) unset — in particular no resampling
iteration contributes to the record. -/
theorem calcZetaOne_insufficient_defaults (vecSpikeTimes : List ℚ)
    (arrEventTimes : EventArray) (dblUseMaxDur : ℚ) (intResampNum : ℕ)
    (boolDirectQuantile : Bool) (dblJitterSize : ℚ) (boolStitch boolParallel : Bool)
    (perms : ℕ → List ℕ) (ppf : ℚ → ℚ) (gpz : List ℚ → ℚ → ℚ × ℚ) {col : List ℚ}
    (hcol : getEventColumn arrEventTimes = .ok col) (hcolne : col ≠ [])
    (hsp : vecSpikeTimes ≠ [])
    (hins : (reduceSpikes vecSpikeTimes col dblUseMaxDur dblJitterSize).length < 3 ∨
      (getTempOffsetOne
        (pseudoData (reduceSpikes vecSpikeTimes col dblUseMaxDur dblJitterSize) col
          dblUseMaxDur boolStitch).1
        (pseudoData (reduceSpikes vecSpikeTimes col dblUseMaxDur dblJitterSize) col
          dblUseMaxDur boolStitch).2 dblUseMaxDur).deviation.length < 3) :
    calcZetaOne vecSpikeTimes arrEventTimes dblUseMaxDur intResampNum
      boolDirectQuantile dblJitterSize boolStitch boolParallel perms ppf gpz =
      .ok { vecSpikeT := none, vecRealDeviation := none, vecRealFrac := none,
            vecRealFracLinear := none, cellRandTime := none,
            cellRandDeviation := none, dblZetaP := 1, dblZETA := 0,
            intZETAIdx := none } := by
  have h1 : col.isEmpty = false := by
    cases col with
    | nil => exact absurd rfl hcolne
    | cons a l => rfl
  have h2 : vecSpikeTimes.isEmpty = false := by
    cases vecSpikeTimes with
    | nil => exact absurd rfl hsp
    | cons a l => rfl
  unfold calcZetaOne
  rw [hcol]
  simp only [Except.bind]
  simp only [calcZetaCore, h1, h2, Bool.false_eq_true, if_false]
  rcases hins with h | h
  · rw [if_pos h]
    rfl
  · by_cases hred : (reduceSpikes vecSpikeTimes col dblUseMaxDur dblJitterSize).length < 3
    · rw [if_pos hred]
      rfl
    · rw [if_neg hred, if_pos h]
      rfl

/-- C9: every deviation curve the orchestrator produces — the real curve
and every resampled null curve stored in `cellRandDeviation` — has
exactly zero mean in exact arithmetic. -/
theorem calcZetaOne_deviation_mean_zero (vecSpikeTimes : List ℚ)
    (arrEventTimes : EventArray) (dblUseMaxDur : ℚ) (intResampNum : ℕ)
    (boolDirectQuantile : Bool) (dblJitterSize : ℚ) (boolStitch boolParallel : Bool)
    (perms : ℕ → List ℕ) (ppf : ℚ → ℚ) (gpz : List ℚ → ℚ → ℚ × ℚ) (dev : List ℚ)
    (hdev : ((calcZetaOne vecSpikeTimes arrEventTimes dblUseMaxDur intResampNum
        boolDirectQuantile dblJitterSize boolStitch boolParallel perms ppf
        gpz).toOption.bind (fun r => r.vecRealDeviation)) = some dev) :
    npMean dev = 0 ∧
    ∀ c ∈ (((calcZetaOne vecSpikeTimes arrEventTimes dblUseMaxDur intResampNum
        boolDirectQuantile dblJitterSize boolStitch boolParallel perms ppf
        gpz).toOption.bind (fun r => r.cellRandDeviation)).getD []),
      npMean c = 0 := by
  cases hcol : getEventColumn arrEventTimes with
  | error e =>
    unfold calcZetaOne at hdev
    rw [hcol] at hdev
    simp [Except.bind, Except.toOption] at hdev
  | ok col =>
    unfold calcZetaOne at hdev ⊢
    rw [hcol] at hdev ⊢
    simp only [Except.bind] at hdev ⊢
    cases hcore : calcZetaCore vecSpikeTimes col dblUseMaxDur intResampNum
        boolDirectQuantile dblJitterSize boolStitch perms ppf gpz with
    | error e =>
      rw [hcore] at hdev
      simp [Except.toOption] at hdev
    | ok r =>
      rw [hcore] at hdev
      simp only [Except.toOption, Option.some_bind] at hdev ⊢
      rcases calcZetaCore_ok_shape hcore with ⟨hnone, _⟩ | ⟨hreal, hrand⟩
      · rw [hnone] at hdev
        exact Option.noConfusion hdev
      · rw [hreal] at hdev
        rw [hrand]
        constructor
        · rw [← Option.some_inj.mp hdev]
          exact npMean_center (getTempOffsetOne_deviation_ne_nil _ _ _)
        · intro c hc
          simp only [Option.getD_some, List.map_map, List.mem_map] at hc
          obtain ⟨i, _, hci⟩ := hc
          rw [← hci]
          exact resampleDeviation_snd_mean_zero _ _ _ _ _

/-- C7 (counterexample): the spike at `1/2` falls in both of the two
coincident trial windows, giving the duplicated in-trial multiset
`[0, 1/2, 1/2, 1]`.  The code replaces the pair with
`1/2 - 2ε, 1/2 - ε` (offsets `ε(j - k/2 - 1)`); the first of these is
`2ε` away from the original value — not "within one floating-point
epsilon" as the claim states. -/
theorem pairwise_lt_four {a b c d : ℚ} (h1 : a < b) (h2 : b < c) (h3 : c < d) :
    List.Pairwise (· < ·) [a, b, c, d] := by
  apply List.Pairwise.cons
  · intro x hx
    rcases List.mem_cons.mp hx with rfl | hx
    · exact h1
    rcases List.mem_cons.mp hx with rfl | hx
    · exact lt_trans h1 h2
    rw [List.mem_singleton] at hx
    subst hx
    exact lt_trans h1 (lt_trans h2 h3)
  apply List.Pairwise.cons
  · intro x hx
    rcases List.mem_cons.mp hx with rfl | hx
    · exact h2
    rw [List.mem_singleton] at hx
    subst hx
    exact lt_trans h2 h3
  apply List.Pairwise.cons
  · intro x hx
    rw [List.mem_singleton] at hx
    subst hx
    exact h3
  exact List.pairwise_singleton _ _

theorem dedup_offset_counterexample :
    (getTempOffsetOne [1/2] [0, 0] 1).times =
      [0, 1/2 - 2 * machineEps, 1/2 - machineEps, 1] ∧
    machineEps < |(1/2 - 2 * machineEps) - (1/2 : ℚ)| := by
  have heps := machineEps_pos
  have hsmall : machineEps < 1/8 := by norm_num [machineEps]
  have hxs : getSpikeT [1/2] [0, 0] 1 = [0, 1/2, 1/2, 1] := by
    with_unfolding_all decide
  have hk : (getSpikeT [1/2] [0, 0] 1).count (1/2) = 2 := by
    rw [hxs]
    with_unfolding_all decide
  have hone : ∀ u ∈ getSpikeT [1/2] [0, 0] 1, u ≠ 1/2 →
      (getSpikeT [1/2] [0, 0] 1).count u = 1 := by
    rw [hxs]
    intro u hu huv
    fin_cases hu
    · with_unfolding_all decide
    · exact absurd rfl huv
    · exact absurd rfl huv
    · with_unfolding_all decide
  have htimes := getTempOffsetOne_times_single_dup (by norm_num : (0:ℚ) < 1) hk
    (le_refl 2) hone
  push_cast at htimes
  have hrep : replaceGroupAux (1/2) machineEps 2 [0, 1/2, 1/2, 1] 0 =
      [0, 1/2 - 2 * machineEps, 1/2 - machineEps, 1] := by
    norm_num [replaceGroupAux]
    constructor <;> ring
  have hpair : List.Pairwise (· < ·)
      [0, 1/2 - 2 * machineEps, 1/2 - machineEps, (1 : ℚ)] := by
    refine pairwise_lt_four ?_ ?_ ?_ <;> linarith
  have hsorted : List.Sorted (· ≤ ·)
      [0, 1/2 - 2 * machineEps, 1/2 - machineEps, (1 : ℚ)] :=
    hpair.imp (fun h => le_of_lt h)
  have hnodup : ([0, 1/2 - 2 * machineEps, 1/2 - machineEps, (1 : ℚ)]).Nodup :=
    hpair.imp (fun h => ne_of_lt h)
  have hnp : npUnique [0, 1/2 - 2 * machineEps, 1/2 - machineEps, (1 : ℚ)] =
      [0, 1/2 - 2 * machineEps, 1/2 - machineEps, 1] := by
    unfold npUnique
    rw [npSort_eq_self hsorted, hnodup.dedup]
  constructor
  · rw [htimes, hxs, hrep, hnp]
  · have he : (1/2 - 2 * machineEps) - (1/2 : ℚ) = -(2 * machineEps) := by ring
    rw [he, abs_neg, abs_of_pos (by positivity)]
    linarith

/-- C7 (amended): for a group of `k ≥ 2` identical in-trial spike
timestamps at value `v`, all other in-trial values occurring once and
lying farther than `(k/2+1)·ε` from `v`, the returned unique-time array
contains the `k` distinct values `v + ε(j - k/2 - 1)` (`j = 0..k-1`) in
place of `v`, each within `(k/2+1)` machine epsilons of `v` (not within
one), with the rank order relative to every other spike time preserved
and the output strictly sorted. -/
theorem getTempOffsetOne_duplicate_group (vecSpikeTimes vecEventTimes : List ℚ)
    (dblUseMaxDur v : ℚ) (k : ℕ)
    (hW : 0 < dblUseMaxDur)
    (hk : (getSpikeT vecSpikeTimes vecEventTimes dblUseMaxDur).count v = k)
    (hk2 : 2 ≤ k)
    (hone : ∀ u ∈ getSpikeT vecSpikeTimes vecEventTimes dblUseMaxDur, u ≠ v →
      (getSpikeT vecSpikeTimes vecEventTimes dblUseMaxDur).count u = 1)
    (hsep : ∀ u ∈ getSpikeT vecSpikeTimes vecEventTimes dblUseMaxDur, u ≠ v →
      ((k : ℚ) / 2 + 1) * machineEps < |u - v|) :
    (∀ j : ℕ, j < k →
      (v + machineEps * ((j : ℚ) - (k : ℚ) / 2 - 1)) ∈
        (getTempOffsetOne vecSpikeTimes vecEventTimes dblUseMaxDur).times) ∧
    (∀ j : ℕ, j < k →
      |(v + machineEps * ((j : ℚ) - (k : ℚ) / 2 - 1)) - v| ≤
        ((k : ℚ) / 2 + 1) * machineEps) ∧
    (∀ j j' : ℕ, j < k → j' < k → j ≠ j' →
      v + machineEps * ((j : ℚ) - (k : ℚ) / 2 - 1) ≠
        v + machineEps * ((j' : ℚ) - (k : ℚ) / 2 - 1)) ∧
    (∀ u ∈ getSpikeT vecSpikeTimes vecEventTimes dblUseMaxDur, u ≠ v →
      u ∈ (getTempOffsetOne vecSpikeTimes vecEventTimes dblUseMaxDur).times ∧
      (u < v → ∀ j : ℕ, j < k →
        u < v + machineEps * ((j : ℚ) - (k : ℚ) / 2 - 1)) ∧
      (v < u → ∀ j : ℕ, j < k →
        v + machineEps * ((j : ℚ) - (k : ℚ) / 2 - 1) < u)) ∧
    List.Sorted (· < ·) (getTempOffsetOne vecSpikeTimes vecEventTimes dblUseMaxDur).times := by
  have htimes := getTempOffsetOne_times_single_dup hW hk hk2 hone
  have heps := machineEps_pos
  have hkq : (2 : ℚ) ≤ (k : ℚ) := by exact_mod_cast hk2
  refine ⟨?_, ?_, ?_, ?_, ?_⟩
  · intro j hj
    rw [htimes, mem_npUnique]
    exact replaceGroupAux_newval_mem v machineEps k _ 0 j (Nat.zero_le j) (by omega)
  · intro j hj
    have hj1 : (j : ℚ) ≤ (k : ℚ) - 1 := by
      have h : (j : ℚ) + 1 ≤ (k : ℚ) := by exact_mod_cast hj
      linarith
    have hj0 : (0 : ℚ) ≤ (j : ℚ) := by positivity
    rw [add_sub_cancel_left, abs_mul, abs_of_pos heps]
    have habs : |(j : ℚ) - (k : ℚ) / 2 - 1| ≤ (k : ℚ) / 2 + 1 := by
      rw [abs_le]
      constructor <;> linarith
    calc machineEps * |(j : ℚ) - (k : ℚ) / 2 - 1|
        ≤ machineEps * ((k : ℚ) / 2 + 1) :=
          mul_le_mul_of_nonneg_left habs (le_of_lt heps)
      _ = ((k : ℚ) / 2 + 1) * machineEps := mul_comm _ _
  · intro j j' hj hj' hne he
    have h1 := add_left_cancel he
    have h2 := mul_left_cancel₀ (ne_of_gt heps) h1
    have h3 : (j : ℚ) = (j' : ℚ) := by linarith
    exact hne (by exact_mod_cast h3)
  · intro u hu huv
    refine ⟨?_, ?_, ?_⟩
    · rw [htimes, mem_npUnique]
      exact replaceGroupAux_mem_of_ne v machineEps k _ 0 u hu huv
    · intro hultv j hj
      have hs := hsep u hu huv
      rw [abs_of_neg (by linarith : u - v < 0)] at hs
      have hj0 : (0 : ℚ) ≤ (j : ℚ) := by positivity
      have h1 : machineEps * (-((k : ℚ) / 2 + 1)) ≤
          machineEps * ((j : ℚ) - (k : ℚ) / 2 - 1) :=
        mul_le_mul_of_nonneg_left (by linarith) (le_of_lt heps)
      have h2 : machineEps * (-((k : ℚ) / 2 + 1)) =
          -(((k : ℚ) / 2 + 1) * machineEps) := by ring
      linarith
    · intro hvltu j hj
      have hs := hsep u hu huv
      rw [abs_of_pos (by linarith : 0 < u - v)] at hs
      have hj1 : (j : ℚ) ≤ (k : ℚ) - 1 := by
        have h : (j : ℚ) + 1 ≤ (k : ℚ) := by exact_mod_cast hj
        linarith
      have h1 : machineEps * ((j : ℚ) - (k : ℚ) / 2 - 1) ≤
          machineEps * ((k : ℚ) / 2 + 1) :=
        mul_le_mul_of_nonneg_left (by linarith) (le_of_lt heps)
      have h2 : machineEps * ((k : ℚ) / 2 + 1) =
          ((k : ℚ) / 2 + 1) * machineEps := mul_comm _ _
      linarith
  · rw [htimes]
    exact npUnique_sorted_lt _

/-! ## Witnesses: each hypothesis-bearing claim theorem applied at a
concrete input -/

theorem calcZetaOne_error_iff_badShape_witness :
    (∃ e, calcZetaOne [1, 2, 3] (.oneD [0]) 1 1 true 1 false false
      (fun _ => [0]) (fun _ => 0) (fun _ _ => (0, 0)) = .error e) ↔
    (EventArray.oneD [0]).badShape :=
  calcZetaOne_error_iff_badShape [1, 2, 3] (.oneD [0]) 1 1 true 1 false false
    (fun _ => [0]) (fun _ => 0) (fun _ _ => (0, 0)) (by norm_num) (by norm_num)
    (by simp [EventArray.proper]) (by simp) (le_refl 1)

theorem stitch_nonoverlap_advances_window_witness :
    (getPseudoSpikeVectors [1/2, 21/2] [0, 10] 1 false).2.getD (0 + 1) 0 -
      (getPseudoSpikeVectors [1/2, 21/2] [0, 10] 1 false).2.getD 0 0 = 1 :=
  stitch_nonoverlap_advances_window [1/2, 21/2] [0, 10] 1 0
    (by simp [List.sorted_cons])
    (by norm_num)
    (by simp [List.getD_cons_zero, List.getD_cons_succ])

theorem calcZetaOne_insufficient_defaults_witness :
    calcZetaOne [0, 100] (.oneD [10]) 1 5 true 1 false false
      (fun _ => [0]) (fun _ => 0) (fun _ _ => (0, 0)) =
      .ok { vecSpikeT := none, vecRealDeviation := none, vecRealFrac := none,
            vecRealFracLinear := none, cellRandTime := none,
            cellRandDeviation := none, dblZetaP := 1, dblZETA := 0,
            intZETAIdx := none } :=
  calcZetaOne_insufficient_defaults [0, 100] (.oneD [10]) 1 5 true 1 false false
    (fun _ => [0]) (fun _ => 0) (fun _ _ => (0, 0)) rfl (by simp) (by simp)
    (Or.inl (by with_unfolding_all decide))

theorem quantileP_eq_amended_witness :
    quantileP (.fin 1) [1/2, 1/2, 3/4] = amendedQuantileP (.fin 1) [1/2, 1/2, 3/4] :=
  quantileP_eq_amended [1/2, 1/2, 3/4] (by simp) (.fin 1)
    (fun h => EFloat.noConfusion h)

theorem getZetaP_monotone_witness :
    quantileP (.fin 1) [1/2] ≤ quantileP (.fin 0) [1/2] ∧
    gumbelZetaP [1/2] ((1 : ℚ) : ℝ) ≤ gumbelZetaP [1/2] ((0 : ℚ) : ℝ) :=
  getZetaP_monotone [1/2] (by simp) 0 1 (by norm_num)

theorem getTempOffsetOne_duplicate_group_witness :
    ((1 : ℚ)/2 + machineEps * (((0 : ℕ) : ℚ) - ((2 : ℕ) : ℚ) / 2 - 1)) ∈
      (getTempOffsetOne [1/2] [0, 0] 1).times ∧
    |((1 : ℚ)/2 + machineEps * (((0 : ℕ) : ℚ) - ((2 : ℕ) : ℚ) / 2 - 1)) - 1/2| ≤
      (((2 : ℕ) : ℚ) / 2 + 1) * machineEps ∧
    (1 : ℚ)/2 + machineEps * (((0 : ℕ) : ℚ) - ((2 : ℕ) : ℚ) / 2 - 1) ≠
      1/2 + machineEps * (((1 : ℕ) : ℚ) - ((2 : ℕ) : ℚ) / 2 - 1) ∧
    List.Sorted (· < ·) (getTempOffsetOne [1/2] [0, 0] 1).times := by
  have hxs : getSpikeT [1/2] [0, 0] 1 = [0, 1/2, 1/2, 1] := by
    with_unfolding_all decide
  have h := getTempOffsetOne_duplicate_group [1/2] [0, 0] 1 (1/2) 2 (by norm_num)
    (by rw [hxs]; with_unfolding_all decide) (le_refl 2)
    (by
      rw [hxs]
      intro u hu huv
      fin_cases hu
      · with_unfolding_all decide
      · exact absurd rfl huv
      · exact absurd rfl huv
      · with_unfolding_all decide)
    (by
      rw [hxs]
      intro u hu huv
      have heps : machineEps < 1/8 := by norm_num [machineEps]
      fin_cases hu
      · rw [show (0 : ℚ) - 1/2 = -(1/2) by norm_num, abs_neg,
          abs_of_pos (by norm_num : (0:ℚ) < 1/2)]
        push_cast
        linarith
      · exact absurd rfl huv
      · exact absurd rfl huv
      · rw [show (1 : ℚ) - 1/2 = 1/2 by norm_num,
          abs_of_pos (by norm_num : (0:ℚ) < 1/2)]
        push_cast
        linarith)
  exact ⟨h.1 0 (by norm_num), h.2.1 0 (by norm_num),
    h.2.2.1 0 1 (by norm_num) (by norm_num) (by norm_num), h.2.2.2.2⟩

theorem reduceSpikes_open_interval_witness :
    (1 : ℚ) ∈ reduceSpikes [0, 1, 2] [0] 1 1 ↔
      (1 : ℚ) ∈ ([0, 1, 2] : List ℚ) ∧
      max (([0, 1, 2] : List ℚ).headD 0) (npMin [0] - 5 * 1 * 1) < 1 ∧
      (1 : ℚ) < npMax [0] + 5 * 1 * 1 :=
  reduceSpikes_open_interval [0, 1, 2] [0] 1 1 (by simp)
    (by simp [List.sorted_cons]) 1

theorem calcZetaOne_deviation_mean_zero_witness :
    npMean [4/25, -1/25, -1/25, -1/25, -1/25] = 0 ∧
    npMean [(1 : ℚ)/4, -1/4] = 0 := by
  have h := calcZetaOne_deviation_mean_zero [1/5, 2/5, 3/5, 4/5] (.oneD [0]) 1 1 true
    1 false false (fun _ => [0]) (fun _ => 0) (fun _ _ => (0, 0))
    [4/25, -1/25, -1/25, -1/25, -1/25] (by with_unfolding_all decide)
  exact ⟨h.1, h.2 [(1 : ℚ)/4, -1/4] (by with_unfolding_all decide)⟩

theorem quantileP_range_witness :
    1 / (((npUnique [1/2, 1/2, 3/4]).length : ℚ) + 1) ≤
      quantileP .inf [1/2, 1/2, 3/4] ∧
    quantileP .inf [1/2, 1/2, 3/4] ≤ 1 ∧
    0 < quantileP .inf [1/2, 1/2, 3/4] ∧
    quantileP .nan [1/2, 1/2, 3/4] = 1 :=
  quantileP_range [1/2, 1/2, 3/4] (by simp) .inf

end Zetapy
